import Mathlib

/-!
# Conversion generator of `pkg/pipeline/conversion_convertible.go`

A shallow embedding of `ConversionConvertibleGenerator.Generate`,
`findKindTerraformedInput` and `NewConversionConvertibleGenerator`, together
with the library functions they call (`filepath.Join`, `filepath.Base`,
`regexp.FindStringSubmatch` for the one pattern used, `strings.ToLower`,
`strings.Split`, `fmt.Sprintf`, `errors.Wrapf`).

Conventions of the embedding:

* Go strings are Lean `String`s; the path and pattern functions work on the
  character list of the string. The `filepath` functions are those of a Unix
  system: the separator is `/` and there are no volume names.
* `unicode.ToLower` is not part of the repository: every function that
  lowercases takes the rune map `lower : Char → Char` as its first argument.
  Concrete evaluations use `Char.toLower`, which agrees with it on ASCII.
* `os.ReadDir` and the template writer are the two fields of `FS`; a run logs
  every directory it lists and every write it attempts.
* `SpokeVersionsMap` is a lookup function `String → Option (List String)`
  (`none`: key absent); slices are lists (values, no shared backing arrays).
* Descriptors are non-nil, and so is the `*types.Package` of the generator,
  which only feeds the template writer and is not represented.
-/

namespace Upjet

/-! ## Data model -/

/-- The two fields of `terraformedInput` that the generator reads. -/
structure terraformedInput where
  Kind : String
  ShortGroup : String
deriving DecidableEq, Repr

/-- An `os.DirEntry`: its `Name()` and `IsDir()`. -/
structure DirEntry where
  Name : String
  IsDir : Bool
deriving DecidableEq, Repr

/-- The inner map `{"Kind": c.Kind}`. -/
structure CRD where
  Kind : String
deriving DecidableEq, Repr

/-- One element of `resources`: `{"CRD": {"Kind": c.Kind}}`. -/
structure Resource where
  CRD : CRD
deriving DecidableEq, Repr

/-- The template variables `vars`: `APIVersion` and `Resources`. -/
structure RenderVars where
  APIVersion : String
  Resources : List Resource
deriving DecidableEq, Repr

/-- An error of the operating system or of the template writer. -/
structure IOError where
  text : String
deriving DecidableEq, Repr

/-- The value built by `errors.Wrapf(err, format, args...)`: the wrapped cause
and the formatted message. -/
structure GenError where
  cause : IOError
  msg : String
deriving DecidableEq, Repr

/-- The file system as the generator sees it: `os.ReadDir` on a path, and the
rendering and writing of one file (`none` is success). -/
structure FS where
  readDir : String → Except IOError (List DirEntry)
  write : String → RenderVars → Option IOError

/-- The type of `SpokeVersionsMap`. -/
abbrev Registry := String → Option (List String)

/-- The registry made by `make(map[string][]string)`. -/
def emptyRegistry : Registry := fun _ => none

/-- The map assignment `m[k] = v`. -/
def Registry.set (m : Registry) (k : String) (v : List String) : Registry :=
  fun x => if x = k then some v else m x

/-- The map read `m[k]`: the stored slice, or the nil slice for a missing key. -/
def Registry.read (m : Registry) (k : String) : List String :=
  (m k).getD []

/-- The exported and the read fields of `ConversionConvertibleGenerator`. -/
structure ConversionConvertibleGenerator where
  LocalDirectoryPath : String
  LicenseHeaderPath : String
  SpokeVersionsMap : Registry
  version : String

/-! ## Library functions -/

/-- Go `strings.ToLower` on a valid string: the rune map applied to every rune. -/
def ToLower (lower : Char → Char) (s : String) : String :=
  String.mk (s.data.map lower)

/-- The first element of `strings.Split(s, ".")`: everything before the first dot. -/
def splitFirst (s : String) : String :=
  String.mk (s.data.takeWhile (fun c => c != '.'))

/-- Go `fmt.Sprintf("%s.%s", a, b)`. -/
def sprintfDot (a b : String) : String :=
  a ++ "." ++ b

/-- Cut a path at every separator; the pieces may be empty. -/
def splitSep : List Char → List (List Char)
  | [] => [[]]
  | c :: cs =>
    if c = '/' then [] :: splitSep cs
    else
      match splitSep cs with
      | [] => [[c]]
      | x :: xs => (c :: x) :: xs

/-- Put the pieces together with a separator between neighbours. -/
def joinSep : List (List Char) → List Char
  | [] => []
  | [x] => x
  | x :: y :: rest => x ++ '/' :: joinSep (y :: rest)

/-- One round of the loop of `filepath.Clean`, on the stack of kept elements
(most recent first): empty and `.` elements are dropped, `..` removes the last
kept element when there is one to remove and is kept itself only in an
unrooted path, any other element is kept. -/
def cleanStep (rooted : Bool) (kept : List (List Char)) (el : List Char) : List (List Char) :=
  if el = [] ∨ el = ['.'] then kept
  else if el = ['.', '.'] then
    match kept with
    | [] => if rooted then [] else [el]
    | top :: rest => if top = ['.', '.'] ∧ rooted = false then el :: top :: rest else rest
  else el :: kept

/-- Go `filepath.Clean` (Unix separator) on the characters of a path. -/
def cleanChars (p : List Char) : List Char :=
  match p with
  | [] => ['.']
  | c :: _ =>
    let rooted : Bool := c = '/'
    let kept := (splitSep p).foldl (cleanStep rooted) []
    if rooted then '/' :: joinSep kept.reverse
    else if kept = [] then ['.'] else joinSep kept.reverse

/-- Go `filepath.Join`: the elements from the first non-empty one on, joined
with the separator and cleaned; the empty string when all are empty. -/
def filepathJoin (elem : List String) : String :=
  match elem.dropWhile (fun e => e = "") with
  | [] => ""
  | es => String.mk (cleanChars (joinSep (es.map String.data)))

/-- Go `filepath.Base`: the last element of the path, after trailing
separators are removed. -/
def filepathBase (path : String) : String :=
  if path = "" then "."
  else
    let stripped := (path.data.reverse.dropWhile (fun c => c = '/'))
    let last := (stripped.takeWhile (fun c => c != '/')).reverse
    if last = [] then "/" else String.mk last

/-- Whether the text continues with `_types.go`, the dot standing for any
character but a line feed. -/
def typesSuffixHere : List Char → Bool
  | '_' :: 't' :: 'y' :: 'p' :: 'e' :: 's' :: x :: 'g' :: 'o' :: _ => x != '\n'
  | _ => false

/-- The greedy group `(.+)` followed by `_types.go`, tried at the start of the
text: the longest non-empty run without a line feed after which the rest of
the pattern matches. -/
def captureGreedy : List Char → Option (List Char)
  | [] => none
  | c :: cs =>
    if c = '\n' then none
    else
      match captureGreedy cs with
      | some more => some (c :: more)
      | none => if typesSuffixHere cs then some [c] else none

/-- The pattern `zz_(.+)_types.go` tried at the start of the text. -/
def matchHere : List Char → Option (List Char)
  | 'z' :: 'z' :: '_' :: rest => captureGreedy rest
  | _ => none

/-- Leftmost match of `zz_(.+)_types.go` in the text; the result is the
captured group. -/
def findSubmatchChars : List Char → Option (List Char)
  | [] => none
  | c :: cs =>
    match matchHere (c :: cs) with
    | some g => some g
    | none => findSubmatchChars cs

/-- The element `m[1]` of `regexTypeFile.FindStringSubmatch(name)` when the
result has at least two elements, and `none` when it has fewer. -/
def regexTypeFileSubmatch (name : String) : Option String :=
  (findSubmatchChars name.data).map String.mk

/-! ## The generator -/

/-- The source function `NewConversionConvertibleGenerator`. -/
def NewConversionConvertibleGenerator (lower : Char → Char) (rootDir group version : String) :
    ConversionConvertibleGenerator :=
  { LocalDirectoryPath := filepathJoin [rootDir, "apis", ToLower lower (splitFirst group)]
    LicenseHeaderPath := filepathJoin [rootDir, "hack", "boilerplate.go.txt"]
    SpokeVersionsMap := emptyRegistry
    version := version }

/-- The source function `findKindTerraformedInput`: the first descriptor whose
lowercased kind is the given name. -/
def findKindTerraformedInput (lower : Char → Char) :
    List terraformedInput → String → Option terraformedInput
  | [], _ => none
  | c :: cs, name =>
    if name = ToLower lower c.Kind then some c
    else findKindTerraformedInput lower cs name

/-- The body of the loop over the files of a version directory (source lines
75 to 95), on the pair of `resources` and `SpokeVersionsMap`. -/
def processFile (lower : Char → Char) (cfgs : List terraformedInput) (versionDir : String)
    (acc : List Resource × Registry) (f : DirEntry) : List Resource × Registry :=
  if f.IsDir then acc
  else
    match regexTypeFileSubmatch f.Name with
    | none => acc
    | some m1 =>
      match findKindTerraformedInput lower cfgs m1 with
      | none => acc
      | some c =>
        (acc.1 ++ [Resource.mk (CRD.mk c.Kind)],
          acc.2.set (sprintfDot c.ShortGroup c.Kind)
            (acc.2.read c.Kind ++ [filepathBase versionDir]))

/-- What a run has done so far: the registry, the directories listed and the
writes attempted, both in order. -/
structure GenState where
  SpokeVersionsMap : Registry
  listed : List String
  writes : List (String × RenderVars)

/-- The message of the error for the scan directory (source line 51). -/
def msgListRoot (dir : String) : String :=
  "cannot list the directory entries for the source folder " ++ dir ++
    " while generating the conversion.Convertible interface functions"

/-- The message of the error for a version directory (source line 73). -/
def msgListVersion (versionDir : String) : String :=
  "cannot list the directory entries for the source folder " ++ versionDir ++
    " while looking for the generated types"

/-- The message of the error for a failed write (source line 99). -/
def msgWrite (filePath : String) : String :=
  "cannot write the generated conversion Hub functions file " ++ filePath

/-- The path `versionDir` of an entry of the scan directory. -/
def versionDirOf (dir name : String) : String :=
  filepathJoin [dir, name]

/-- The path `filePath` of the file generated for an entry. -/
def filePathOf (dir name : String) : String :=
  filepathJoin [dir, name, "zz_generated.conversion.go"]

/-- The loop over the entries of the scan directory (source lines 54 to 102). -/
def generateLoop (lower : Char → Char) (dir version : String) (fs : FS)
    (cfgs : List terraformedInput) : List DirEntry → GenState → Option GenError × GenState
  | [], st => (none, st)
  | e :: es, st =>
    if !e.IsDir || e.Name = version then generateLoop lower dir version fs cfgs es st
    else
      let filePath := filePathOf dir e.Name
      let versionDir := versionDirOf dir e.Name
      match fs.readDir versionDir with
      | Except.error err =>
        (some (GenError.mk err (msgListVersion versionDir)),
          GenState.mk st.SpokeVersionsMap (st.listed ++ [versionDir]) st.writes)
      | Except.ok files =>
        let r := files.foldl (processFile lower cfgs versionDir) ([], st.SpokeVersionsMap)
        let vars := RenderVars.mk e.Name r.1
        let st1 := GenState.mk r.2 (st.listed ++ [versionDir]) (st.writes ++ [(filePath, vars)])
        match fs.write filePath vars with
        | some err => (some (GenError.mk err (msgWrite filePath)), st1)
        | none => generateLoop lower dir version fs cfgs es st1

/-- The source method `Generate`: the returned error (`none` for nil) and the
registry and logs at the end of the run. -/
def Generate (lower : Char → Char) (cg : ConversionConvertibleGenerator) (fs : FS)
    (cfgs : List terraformedInput) : Option GenError × GenState :=
  match fs.readDir cg.LocalDirectoryPath with
  | Except.error err =>
    (some (GenError.mk err (msgListRoot cg.LocalDirectoryPath)),
      GenState.mk cg.SpokeVersionsMap [cg.LocalDirectoryPath] [])
  | Except.ok entries =>
    generateLoop lower cg.LocalDirectoryPath cg.version fs cfgs entries
      (GenState.mk cg.SpokeVersionsMap [cg.LocalDirectoryPath] [])

/-! ## Notions used to state the properties -/

/-- A name that a directory listing can hold: not empty, no separator, and
neither of the two dot names. -/
def validName (n : String) : Prop :=
  n.data ≠ [] ∧ '/' ∉ n.data ∧ n.data ≠ ['.'] ∧ n.data ≠ ['.', '.']

instance : DecidablePred validName := fun n => by
  unfold validName; infer_instance

/-- The validity of a name, on its characters. -/
def validEl (n : List Char) : Prop :=
  n ≠ [] ∧ '/' ∉ n ∧ n ≠ ['.'] ∧ n ≠ ['.', '.']

instance : DecidablePred validEl := fun n => by
  unfold validEl; infer_instance

/-- Whether a path starts with the separator. -/
def rootedOf : List Char → Bool
  | [] => false
  | c :: _ => c = '/'

/-- The elements that `filepath.Clean` keeps, most recent first. -/
def keptOf (p : List Char) : List (List Char) :=
  (splitSep p).foldl (cleanStep (rootedOf p)) []

/-- The text that `filepath.Clean` returns for the kept elements. -/
def renderKept (rooted : Bool) (kept : List (List Char)) : List Char :=
  if rooted then '/' :: joinSep kept.reverse
  else if kept = [] then ['.'] else joinSep kept.reverse

/-- The text handed to `filepath.Clean` by `filepath.Join` for a directory and
one name. -/
def joinedTo (d n : List Char) : List Char :=
  if d = [] then n else d ++ '/' :: n

/-- An element that `filepath.Clean` keeps: not empty and free of separators. -/
def plainEl (x : List Char) : Prop :=
  x ≠ [] ∧ '/' ∉ x

/-- The file system in which one directory has another listing. -/
def FS.withListing (fs : FS) (path : String) (files : List DirEntry) : FS :=
  { readDir := fun p => if p = path then Except.ok files else fs.readDir p
    write := fs.write }

/-- The descriptor that the loop body finds for an entry of a version
directory (source lines 76 to 88), `none` when the body takes a `continue`. -/
def resolveFile (lower : Char → Char) (cfgs : List terraformedInput) (f : DirEntry) :
    Option terraformedInput :=
  if f.IsDir then none
  else
    match regexTypeFileSubmatch f.Name with
    | none => none
    | some m1 => findKindTerraformedInput lower cfgs m1

/-- The resource entries that a listing of a version directory yields. -/
def resourcesOf (lower : Char → Char) (cfgs : List terraformedInput) (files : List DirEntry) :
    List Resource :=
  files.filterMap (fun f => (resolveFile lower cfgs f).map (fun c => Resource.mk (CRD.mk c.Kind)))

/-- The registry after the loop body has run over a listing. -/
def registerFiles (lower : Char → Char) (cfgs : List terraformedInput) (versionDir : String)
    (files : List DirEntry) (reg : Registry) : Registry :=
  (files.foldl (processFile lower cfgs versionDir) ([], reg)).2

/-- An entry of the scan directory for which the outer loop does not take the
`continue` of source line 58: a directory other than the hub version. -/
def isSpoke (version : String) (e : DirEntry) : Bool :=
  e.IsDir && decide (e.Name ≠ version)

/-- The spoke version directories of a listing, in scan order. -/
def spokesOf (version : String) (entries : List DirEntry) : List DirEntry :=
  entries.filter (isSpoke version)

/-- The listing of the version directory of an entry, empty when it cannot be
listed. -/
def listingOf (fs : FS) (dir : String) (e : DirEntry) : List DirEntry :=
  match fs.readDir (versionDirOf dir e.Name) with
  | Except.ok files => files
  | Except.error _ => []

/-- The manifest of a spoke version: its name and the resources of its listing. -/
def manifestOf (lower : Char → Char) (cfgs : List terraformedInput) (fs : FS) (dir : String)
    (e : DirEntry) : RenderVars :=
  RenderVars.mk e.Name (resourcesOf lower cfgs (listingOf fs dir e))

/-- The write that the run attempts for a spoke version. -/
def writeOf (lower : Char → Char) (cfgs : List terraformedInput) (fs : FS) (dir : String)
    (e : DirEntry) : String × RenderVars :=
  (filePathOf dir e.Name, manifestOf lower cfgs fs dir e)

/-- The registry after the files of the given spoke versions have been
processed, in order. -/
def registryThrough (lower : Char → Char) (cfgs : List terraformedInput) (fs : FS) (dir : String)
    (spokes : List DirEntry) (reg : Registry) : Registry :=
  spokes.foldl
    (fun r e => registerFiles lower cfgs (versionDirOf dir e.Name) (listingOf fs dir e) r) reg

/-- The spoke versions whose files a run processes: those before the first
one that cannot be listed, up to and including the first one whose write
fails. -/
def processedSpokes (lower : Char → Char) (cfgs : List terraformedInput) (fs : FS) (dir : String) :
    List DirEntry → List DirEntry
  | [] => []
  | e :: es =>
    match fs.readDir (versionDirOf dir e.Name) with
    | Except.error _ => []
    | Except.ok _ =>
      match fs.write (filePathOf dir e.Name) (manifestOf lower cfgs fs dir e) with
      | some _ => [e]
      | none => e :: processedSpokes lower cfgs fs dir es

/-- The registry key under which a descriptor is stored. -/
def keyOf (c : terraformedInput) : String :=
  sprintfDot c.ShortGroup c.Kind

/-- Whether the file resolves to a descriptor stored under the key. -/
def fileHasKey (lower : Char → Char) (cfgs : List terraformedInput) (k : String)
    (f : DirEntry) : Bool :=
  match resolveFile lower cfgs f with
  | some c => decide (keyOf c = k)
  | none => false

/-- Whether some file of the spoke version resolves to a descriptor stored
under the key. -/
def matchedIn (lower : Char → Char) (cfgs : List terraformedInput) (fs : FS) (dir : String)
    (k : String) (e : DirEntry) : Bool :=
  (listingOf fs dir e).any (fileHasKey lower cfgs k)

/-- The name recorded for a spoke version: `filepath.Base(versionDir)`. -/
def spokeName (dir : String) (e : DirEntry) : String :=
  filepathBase (versionDirOf dir e.Name)

/-- Every spoke version of the list can be listed and its file written. -/
def allSucceed (lower : Char → Char) (version : String) (cfgs : List terraformedInput) (fs : FS)
    (dir : String) (entries : List DirEntry) : Prop :=
  ∀ e ∈ entries, isSpoke version e = true →
    (fs.readDir (versionDirOf dir e.Name)).isOk = true ∧
      fs.write (filePathOf dir e.Name) (manifestOf lower cfgs fs dir e) = none

/-- The entries of the scan directory, none when it cannot be listed. -/
def scanEntries (fs : FS) (dir : String) : List DirEntry :=
  match fs.readDir dir with
  | Except.ok entries => entries
  | Except.error _ => []

/-- The spoke versions whose files a run of `Generate` processes. -/
def processedBy (lower : Char → Char) (cg : ConversionConvertibleGenerator) (fs : FS)
    (cfgs : List terraformedInput) : List DirEntry :=
  processedSpokes lower cfgs fs cg.LocalDirectoryPath
    (spokesOf cg.version (scanEntries fs cg.LocalDirectoryPath))

/-- The invariant of the registry: every key contains a dot, no key is the
kind of a descriptor, and every value holds exactly one name. -/
def RegistryInv (cfgs : List terraformedInput) (r : Registry) : Prop :=
  ∀ k v, r k = some v → '.' ∈ k.data ∧ (∀ d ∈ cfgs, k ≠ d.Kind) ∧ v.length = 1

/-- No kind of a descriptor is a key of the registry. -/
def NoKindKey (cfgs : List terraformedInput) (r : Registry) : Prop :=
  ∀ d ∈ cfgs, r d.Kind = none

/-! ## Concrete inputs -/

/-- The descriptor list of the scenario: the kind `Bucket` of group `s3`. -/
def bucketCfgs : List terraformedInput :=
  [terraformedInput.mk "Bucket" "s3"]

/-- The error of a path that does not exist. -/
def notFound : IOError :=
  IOError.mk "no such file or directory"

/-- The generator of the scenario: scan directory `apis/s3`, hub `v1beta1`. -/
def scenarioGen : ConversionConvertibleGenerator :=
  NewConversionConvertibleGenerator Char.toLower "" "s3.aws.upbound.io" "v1beta1"

/-- The scenario: version directories `v1alpha1` and `v1beta1`, each with the
type file of `Bucket`; every write succeeds. -/
def scenarioFS : FS :=
  { readDir := fun p =>
      if p = "apis/s3" then
        Except.ok [DirEntry.mk "v1alpha1" true, DirEntry.mk "v1beta1" true]
      else if p = "apis/s3/v1alpha1" then Except.ok [DirEntry.mk "zz_bucket_types.go" false]
      else if p = "apis/s3/v1beta1" then Except.ok [DirEntry.mk "zz_bucket_types.go" false]
      else Except.error notFound
    write := fun _ _ => none }

/-- The error of a directory that may not be read. -/
def denied : IOError :=
  IOError.mk "permission denied"

/-- A file system in which `v1alpha1` can be listed and `v1alpha2` cannot;
every write succeeds. -/
def unreadableFS : FS :=
  { readDir := fun p =>
      if p = "apis/s3" then
        Except.ok [DirEntry.mk "v1alpha1" true, DirEntry.mk "v1alpha2" true]
      else if p = "apis/s3/v1alpha1" then Except.ok [DirEntry.mk "zz_bucket_types.go" false]
      else Except.error denied
    write := fun _ _ => none }

/-- A file system with the spoke versions `v1alpha1` and `v1alpha2` and the
hub `v1beta1`, each with the type file of `Bucket`; every write succeeds. -/
def twoSpokesFS : FS :=
  { readDir := fun p =>
      if p = "apis/s3" then
        Except.ok [DirEntry.mk "v1alpha1" true, DirEntry.mk "v1alpha2" true,
          DirEntry.mk "v1beta1" true]
      else if p = "apis/s3/v1alpha1" then Except.ok [DirEntry.mk "zz_bucket_types.go" false]
      else if p = "apis/s3/v1alpha2" then Except.ok [DirEntry.mk "zz_bucket_types.go" false]
      else if p = "apis/s3/v1beta1" then Except.ok [DirEntry.mk "zz_bucket_types.go" false]
      else Except.error notFound
    write := fun _ _ => none }

/-- A file system with the spoke versions `v1alpha1`, `v1alpha2`, `v1alpha3`
and the hub `v1beta1`, in which the file of `v1alpha2` cannot be written. -/
def writeFailsFS : FS :=
  { readDir := fun p =>
      if p = "apis/s3" then
        Except.ok [DirEntry.mk "v1alpha1" true, DirEntry.mk "v1alpha2" true,
          DirEntry.mk "v1alpha3" true, DirEntry.mk "v1beta1" true]
      else if p = "apis/s3/v1alpha1" then Except.ok [DirEntry.mk "zz_bucket_types.go" false]
      else if p = "apis/s3/v1alpha2" then Except.ok [DirEntry.mk "zz_bucket_types.go" false]
      else if p = "apis/s3/v1alpha3" then Except.ok [DirEntry.mk "zz_bucket_types.go" false]
      else if p = "apis/s3/v1beta1" then Except.ok [DirEntry.mk "zz_bucket_types.go" false]
      else Except.error notFound
    write := fun p _ =>
      if p = "apis/s3/v1alpha2/zz_generated.conversion.go" then some denied else none }

/-- A file system whose only spoke version holds one file, with a line feed
in its name: `zz_x`, a line feed, `zz_bucket_types.go`. -/
def lineFeedFS : FS :=
  { readDir := fun p =>
      if p = "apis/s3" then
        Except.ok [DirEntry.mk "v1alpha1" true, DirEntry.mk "v1beta1" true]
      else if p = "apis/s3/v1alpha1" then
        Except.ok [DirEntry.mk ("zz_" ++ "x\nzz_bucket" ++ "_types.go") false]
      else if p = "apis/s3/v1beta1" then Except.ok [DirEntry.mk "zz_bucket_types.go" false]
      else Except.error notFound
    write := fun _ _ => none }

/-- A file system whose only spoke version holds a backup copy of a type file. -/
def strayFS : FS :=
  { readDir := fun p =>
      if p = "apis/s3" then
        Except.ok [DirEntry.mk "v1alpha1" true, DirEntry.mk "v1beta1" true]
      else if p = "apis/s3/v1alpha1" then
        Except.ok [DirEntry.mk "backup_zz_bucket_types.go.orig" false]
      else if p = "apis/s3/v1beta1" then Except.ok [DirEntry.mk "zz_bucket_types.go" false]
      else Except.error notFound
    write := fun _ _ => none }

/-! ## Paths: `filepath.Join` and `filepath.Base` on valid names -/

theorem splitSep_ne_nil (p : List Char) : splitSep p ≠ [] := by
  induction p with
  | nil => simp [splitSep]
  | cons c cs ih =>
    unfold splitSep
    split
    · simp
    · split
      · simp
      · simp

theorem splitSep_no_sep (n : List Char) (h : '/' ∉ n) : splitSep n = [n] := by
  induction n with
  | nil => rfl
  | cons c cs ih =>
    have hc : c ≠ '/' := fun e => h (by simp [e])
    have hcs : '/' ∉ cs := fun e => h (by simp [e])
    simp [splitSep, hc, ih hcs]

theorem splitSep_append_sep (p q : List Char) :
    splitSep (p ++ '/' :: q) = splitSep p ++ splitSep q := by
  induction p with
  | nil => simp [splitSep]
  | cons c cs ih =>
    by_cases hc : c = '/'
    · simp [splitSep, hc, ih]
    · simp only [List.cons_append, splitSep, hc, if_false, List.append_eq]
      rw [ih]
      cases hs : splitSep cs with
      | nil => exact absurd hs (splitSep_ne_nil cs)
      | cons x xs => simp

theorem joinSep_snoc (l : List (List Char)) (n : List Char) :
    joinSep (l ++ [n]) = if l = [] then n else joinSep l ++ '/' :: n := by
  induction l with
  | nil => simp [joinSep]
  | cons x xs ih =>
    cases xs with
    | nil => simp [joinSep]
    | cons y ys =>
      simp only [List.cons_append, joinSep] at ih ⊢
      simp [ih]

theorem cleanStep_valid (rooted : Bool) (kept : List (List Char)) (n : List Char)
    (h1 : n ≠ []) (h2 : n ≠ ['.']) (h3 : n ≠ ['.', '.']) :
    cleanStep rooted kept n = n :: kept := by
  simp [cleanStep, h1, h2, h3]

theorem cleanChars_eq (p : List Char) (hp : p ≠ []) :
    cleanChars p = renderKept (rootedOf p) (keptOf p) := by
  cases p with
  | nil => exact absurd rfl hp
  | cons c cs => simp [cleanChars, renderKept, keptOf, rootedOf]

theorem rootedOf_append (p q : List Char) (hp : p ≠ []) : rootedOf (p ++ q) = rootedOf p := by
  cases p with
  | nil => exact absurd rfl hp
  | cons c cs => simp [rootedOf]

theorem keptOf_snoc (p n : List Char) (hp : p ≠ []) (hn : validEl n) :
    keptOf (p ++ '/' :: n) = n :: keptOf p := by
  unfold keptOf
  rw [rootedOf_append p _ hp, splitSep_append_sep, splitSep_no_sep n hn.2.1, List.foldl_append]
  simp only [List.foldl_cons, List.foldl_nil]
  exact cleanStep_valid _ _ _ hn.1 hn.2.2.1 hn.2.2.2

theorem rootedOf_valid (n : List Char) (hn : validEl n) : rootedOf n = false := by
  cases n with
  | nil => rfl
  | cons c cs =>
    have hc : c ≠ '/' := fun e => hn.2.1 (by simp [e])
    simp [rootedOf, hc]

theorem keptOf_valid (n : List Char) (hn : validEl n) : keptOf n = [n] := by
  unfold keptOf
  rw [splitSep_no_sep n hn.2.1]
  simp only [List.foldl_cons, List.foldl_nil]
  exact cleanStep_valid _ _ _ hn.1 hn.2.2.1 hn.2.2.2

theorem renderKept_cons_cons (rooted : Bool) (f n : List Char) (k : List (List Char)) :
    renderKept rooted (f :: n :: k) = renderKept rooted (n :: k) ++ '/' :: f := by
  have h : (n :: k).reverse ≠ [] := by simp
  simp only [renderKept, List.reverse_cons _ (n :: k), joinSep_snoc, h, if_false]
  cases rooted <;> simp

theorem renderKept_cons (rooted : Bool) (n : List Char) (k : List (List Char)) :
    ∃ front, renderKept rooted (n :: k) = front ++ n ∧ (front = [] ∨ ∃ q, front = q ++ ['/']) := by
  simp only [renderKept, List.reverse_cons, joinSep_snoc]
  by_cases hk : k.reverse = []
  · cases rooted
    · exact ⟨[], by simp [hk], Or.inl rfl⟩
    · exact ⟨['/'], by simp [hk], Or.inr ⟨[], rfl⟩⟩
  · cases rooted
    · exact ⟨joinSep k.reverse ++ ['/'], by simp [hk], Or.inr ⟨_, rfl⟩⟩
    · exact ⟨'/' :: joinSep k.reverse ++ ['/'], by simp [hk], Or.inr ⟨_, rfl⟩⟩

theorem joinedTo_ne_nil (d n : List Char) (hn : n ≠ []) : joinedTo d n ≠ [] := by
  unfold joinedTo; split <;> simp [hn]

theorem keptOf_joinedTo (d n : List Char) (hn : validEl n) :
    ∃ k, keptOf (joinedTo d n) = n :: k := by
  unfold joinedTo
  split
  · exact ⟨[], keptOf_valid n hn⟩
  · next hd => exact ⟨_, keptOf_snoc d n hd hn⟩

theorem cleanChars_joinedTo (d n : List Char) (hn : validEl n) :
    ∃ front, cleanChars (joinedTo d n) = front ++ n ∧ (front = [] ∨ ∃ q, front = q ++ ['/']) := by
  rw [cleanChars_eq _ (joinedTo_ne_nil d n hn.1)]
  obtain ⟨k, hk⟩ := keptOf_joinedTo d n hn
  rw [hk]
  exact renderKept_cons _ n k

theorem cleanChars_joinedTo_snoc (d n f : List Char) (hn : validEl n) (hf : validEl f) :
    cleanChars (joinedTo d n ++ '/' :: f) = cleanChars (joinedTo d n) ++ '/' :: f := by
  have hne := joinedTo_ne_nil d n hn.1
  rw [cleanChars_eq _ (by simp [hne]), cleanChars_eq _ hne, keptOf_snoc _ f hne hf,
    rootedOf_append _ _ hne]
  obtain ⟨k, hk⟩ := keptOf_joinedTo d n hn
  rw [hk]
  exact renderKept_cons_cons _ f n k

theorem validEl_of_validName (n : String) (h : validName n) : validEl n.data := h

theorem filepathJoin_two (d n : String) (hn : validName n) :
    filepathJoin [d, n] = String.mk (cleanChars (joinedTo d.data n.data)) := by
  have hn1 : n ≠ "" := fun e => hn.1 (by simp [e])
  by_cases hd : d = ""
  · subst hd
    simp [filepathJoin, List.dropWhile, hn1, joinedTo, joinSep]
  · have hd1 : d.data ≠ [] := fun e => hd (String.ext e)
    simp [filepathJoin, List.dropWhile, hd, joinedTo, joinSep, hd1]

theorem filepathJoin_three (d n f : String) (hn : validName n) :
    filepathJoin [d, n, f] = String.mk (cleanChars (joinedTo d.data n.data ++ '/' :: f.data)) := by
  have hn1 : n ≠ "" := fun e => hn.1 (by simp [e])
  by_cases hd : d = ""
  · subst hd
    simp [filepathJoin, List.dropWhile, hn1, joinedTo, joinSep]
  · have hd1 : d.data ≠ [] := fun e => hd (String.ext e)
    simp [filepathJoin, List.dropWhile, hd, joinedTo, joinSep, hd1]

/-- For a valid name the generated file lies directly in the version directory. -/
theorem filePathOf_eq (d n : String) (hn : validName n) :
    filePathOf d n = versionDirOf d n ++ "/zz_generated.conversion.go" := by
  unfold filePathOf versionDirOf
  rw [filepathJoin_three d n _ hn, filepathJoin_two d n hn]
  apply String.ext
  rw [String.data_append]
  exact cleanChars_joinedTo_snoc d.data n.data _ hn (by decide)

theorem base_of_snoc (front n : List Char) (hn : validEl n)
    (hf : front = [] ∨ ∃ q, front = q ++ ['/']) :
    filepathBase (String.mk (front ++ n)) = String.mk n := by
  have hne : String.mk (front ++ n) ≠ "" := by
    intro e
    have := congrArg String.data e
    simp [hn.1] at this
  have hrev : n.reverse ≠ [] := by simp [hn.1]
  have hno : ∀ c ∈ n.reverse, c ≠ '/' := by
    intro c hc e
    exact hn.2.1 (by rw [← e]; simpa using hc)
  have hdrop : (n.reverse ++ front.reverse).dropWhile (fun c => decide (c = '/'))
      = n.reverse ++ front.reverse := by
    cases hr : n.reverse with
    | nil => exact absurd hr hrev
    | cons a as =>
      have ha : a ≠ '/' := hno a (by simp [hr])
      simp [List.dropWhile, ha]
  have htake : (n.reverse ++ front.reverse).takeWhile (fun c => c != '/') = n.reverse := by
    rw [List.takeWhile_append_of_pos (by intro c hc; simpa using hno c hc)]
    rcases hf with h | ⟨q, h⟩
    · simp [h]
    · simp [h, List.takeWhile]
  simp only [filepathBase, hne, if_false, List.reverse_append, hdrop, htake, List.reverse_reverse]
  simp [hn.1]

/-- The base of the version directory of a valid name is the name. -/
theorem filepathBase_versionDirOf (d n : String) (hn : validName n) :
    filepathBase (versionDirOf d n) = n := by
  unfold versionDirOf
  rw [filepathJoin_two d n hn]
  obtain ⟨front, h1, h2⟩ := cleanChars_joinedTo d.data n.data hn
  rw [h1, base_of_snoc front n.data hn h2]

theorem versionDirOf_inj (d a b : String) (ha : validName a) (hb : validName b)
    (h : versionDirOf d a = versionDirOf d b) : a = b := by
  rw [← filepathBase_versionDirOf d a ha, ← filepathBase_versionDirOf d b hb, h]

theorem filePathOf_inj (d a b : String) (ha : validName a) (hb : validName b)
    (h : filePathOf d a = filePathOf d b) : a = b := by
  rw [filePathOf_eq d a ha, filePathOf_eq d b hb] at h
  apply versionDirOf_inj d a b ha hb
  have := congrArg String.data h
  simp only [String.data_append] at this
  exact String.ext (List.append_cancel_right this)

/-! ## The pattern -/

theorem captureGreedy_suffix_only : captureGreedy "_types.go".data = none := by decide

theorem captureGreedy_exact (c : Char) (cs : List Char) (h : '\n' ∉ c :: cs) :
    captureGreedy (c :: cs ++ "_types.go".data) = some (c :: cs) := by
  induction cs generalizing c with
  | nil =>
    have hc : c ≠ '\n' := fun e => h (by simp [e])
    have h0 := captureGreedy_suffix_only
    simp only [List.cons_append, List.nil_append, captureGreedy, hc, if_false, h0]
    rfl
  | cons d ds ih =>
    have hc : c ≠ '\n' := fun e => h (by simp [e])
    have hd : '\n' ∉ d :: ds := fun e => h (List.mem_cons_of_mem _ e)
    have := ih d hd
    simp only [List.cons_append] at this ⊢
    simp only [captureGreedy, hc, if_false]
    rw [captureGreedy] at this
    simp only [this]

theorem regexTypeFileSubmatch_exact (foo : String) (hne : foo ≠ "") (hnl : '\n' ∉ foo.data) :
    regexTypeFileSubmatch ("zz_" ++ foo ++ "_types.go") = some foo := by
  cases hf : foo.data with
  | nil => exact absurd (String.ext hf) hne
  | cons c cs =>
    have hg := captureGreedy_exact c cs (hf ▸ hnl)
    have hd : ("zz_" ++ foo ++ "_types.go").data
        = 'z' :: 'z' :: '_' :: (c :: cs ++ "_types.go".data) := by
      simp [String.data_append, hf]
    unfold regexTypeFileSubmatch
    rw [hd]
    simp only [findSubmatchChars, matchHere, hg, Option.map_some']
    congr 1
    exact String.ext hf.symm

/-! ## The descriptor lookup -/

theorem findKind_eq_none (lower : Char → Char) (cfgs : List terraformedInput) (name : String) :
    findKindTerraformedInput lower cfgs name = none ↔
      ∀ c ∈ cfgs, ToLower lower c.Kind ≠ name := by
  induction cfgs with
  | nil => simp [findKindTerraformedInput]
  | cons c cs ih =>
    by_cases h : name = ToLower lower c.Kind
    · simp [findKindTerraformedInput, h]
    · have h2 : ¬ ToLower lower c.Kind = name := fun e => h e.symm
      simp [findKindTerraformedInput, h, ih, h2]

theorem findKind_first (lower : Char → Char) (front back : List terraformedInput)
    (d : terraformedInput) (name : String)
    (hfront : ∀ x ∈ front, ToLower lower x.Kind ≠ name) (hd : ToLower lower d.Kind = name) :
    findKindTerraformedInput lower (front ++ d :: back) name = some d := by
  induction front with
  | nil => simp [findKindTerraformedInput, hd]
  | cons x xs ih =>
    have hx : ¬ name = ToLower lower x.Kind := fun e => hfront x (by simp) e.symm
    simp only [List.cons_append, findKindTerraformedInput, hx, if_false]
    exact ih (fun y hy => hfront y (List.mem_cons_of_mem _ hy))

theorem findKind_some_mem (lower : Char → Char) (cfgs : List terraformedInput) (name : String)
    (c : terraformedInput) (h : findKindTerraformedInput lower cfgs name = some c) :
    c ∈ cfgs ∧ ToLower lower c.Kind = name := by
  induction cfgs with
  | nil => simp [findKindTerraformedInput] at h
  | cons x xs ih =>
    by_cases hx : name = ToLower lower x.Kind
    · simp only [findKindTerraformedInput, hx, if_true, Option.some.injEq] at h
      subst h
      exact ⟨by simp, hx.symm⟩
    · simp only [findKindTerraformedInput, hx, if_false] at h
      exact ⟨List.mem_cons_of_mem _ (ih h).1, (ih h).2⟩

theorem findKind_isSome_iff (lower : Char → Char) (cfgs : List terraformedInput) (name : String) :
    (findKindTerraformedInput lower cfgs name).isSome = true ↔
      ∃ c ∈ cfgs, ToLower lower c.Kind = name := by
  rw [Option.isSome_iff_ne_none, Ne, findKind_eq_none]
  push_neg
  rfl

/-! ## The loop over the files of one version directory -/

theorem processFile_eq (lower : Char → Char) (cfgs : List terraformedInput) (vd : String)
    (acc : List Resource × Registry) (f : DirEntry) :
    processFile lower cfgs vd acc f =
      match resolveFile lower cfgs f with
      | none => acc
      | some c =>
        (acc.1 ++ [Resource.mk (CRD.mk c.Kind)],
          acc.2.set (keyOf c) (acc.2.read c.Kind ++ [filepathBase vd])) := by
  unfold processFile resolveFile keyOf
  cases f.IsDir
  · cases regexTypeFileSubmatch f.Name with
    | none => simp
    | some m1 =>
      cases findKindTerraformedInput lower cfgs m1 <;> simp
  · simp

theorem resolveFile_mem (lower : Char → Char) (cfgs : List terraformedInput) (f : DirEntry)
    (c : terraformedInput) (h : resolveFile lower cfgs f = some c) : c ∈ cfgs := by
  unfold resolveFile at h
  cases hd : f.IsDir
  · rw [hd] at h
    cases hm : regexTypeFileSubmatch f.Name with
    | none => simp [hm] at h
    | some m1 =>
      simp only [hm, Bool.false_eq_true, if_false] at h
      exact (findKind_some_mem lower cfgs m1 c h).1
  · simp [hd] at h

theorem foldl_processFile_fst (lower : Char → Char) (cfgs : List terraformedInput) (vd : String)
    (files : List DirEntry) (acc : List Resource × Registry) :
    (files.foldl (processFile lower cfgs vd) acc).1 = acc.1 ++ resourcesOf lower cfgs files := by
  induction files generalizing acc with
  | nil => simp [resourcesOf]
  | cons f fs ih =>
    rw [List.foldl_cons, ih, processFile_eq]
    cases h : resolveFile lower cfgs f with
    | none => simp [resourcesOf, List.filterMap_cons, h]
    | some c => simp [resourcesOf, List.filterMap_cons, h]

theorem foldl_processFile_snd (lower : Char → Char) (cfgs : List terraformedInput) (vd : String)
    (files : List DirEntry) (res : List Resource) (reg : Registry) :
    (files.foldl (processFile lower cfgs vd) (res, reg)).2 =
      registerFiles lower cfgs vd files reg := by
  unfold registerFiles
  induction files generalizing res reg with
  | nil => rfl
  | cons f fs ih =>
    simp only [List.foldl_cons]
    rw [processFile_eq, processFile_eq]
    cases h : resolveFile lower cfgs f with
    | none => exact ih res reg
    | some c =>
      simp only
      rw [ih, ih ([] ++ _)]

theorem registerFiles_cons (lower : Char → Char) (cfgs : List terraformedInput) (vd : String)
    (f : DirEntry) (files : List DirEntry) (reg : Registry) :
    registerFiles lower cfgs vd (f :: files) reg =
      registerFiles lower cfgs vd files (processFile lower cfgs vd ([], reg) f).2 := by
  conv_lhs => unfold registerFiles
  rw [List.foldl_cons]
  exact foldl_processFile_snd lower cfgs vd files _ _

theorem registerFiles_nil (lower : Char → Char) (cfgs : List terraformedInput) (vd : String)
    (reg : Registry) : registerFiles lower cfgs vd [] reg = reg := rfl

/-! ## The loop over the entries of the scan directory -/

theorem skip_cond (version : String) (e : DirEntry) :
    (!e.IsDir || decide (e.Name = version)) = !isSpoke version e := by
  unfold isSpoke
  cases e.IsDir <;> simp

theorem generateLoop_skip (lower : Char → Char) (dir version : String) (fs : FS)
    (cfgs : List terraformedInput) (e : DirEntry) (es : List DirEntry) (st : GenState)
    (h : isSpoke version e = false) :
    generateLoop lower dir version fs cfgs (e :: es) st =
      generateLoop lower dir version fs cfgs es st := by
  rw [generateLoop, skip_cond, h]
  simp

theorem generateLoop_list_error (lower : Char → Char) (dir version : String) (fs : FS)
    (cfgs : List terraformedInput) (e : DirEntry) (es : List DirEntry) (st : GenState)
    (err : IOError) (h : isSpoke version e = true)
    (hl : fs.readDir (versionDirOf dir e.Name) = Except.error err) :
    generateLoop lower dir version fs cfgs (e :: es) st =
      (some (GenError.mk err (msgListVersion (versionDirOf dir e.Name))),
        GenState.mk st.SpokeVersionsMap (st.listed ++ [versionDirOf dir e.Name]) st.writes) := by
  rw [generateLoop, skip_cond, h]
  simp [hl]

theorem listingOf_ok (fs : FS) (dir : String) (e : DirEntry) (files : List DirEntry)
    (hl : fs.readDir (versionDirOf dir e.Name) = Except.ok files) : listingOf fs dir e = files := by
  simp [listingOf, hl]

theorem listingOf_error (fs : FS) (dir : String) (e : DirEntry) (err : IOError)
    (hl : fs.readDir (versionDirOf dir e.Name) = Except.error err) : listingOf fs dir e = [] := by
  simp [listingOf, hl]

/-- The state after the files of a spoke version have been processed and its
write attempted. -/
theorem generateLoop_write_error (lower : Char → Char) (dir version : String) (fs : FS)
    (cfgs : List terraformedInput) (e : DirEntry) (es : List DirEntry) (st : GenState)
    (files : List DirEntry) (err : IOError) (h : isSpoke version e = true)
    (hl : fs.readDir (versionDirOf dir e.Name) = Except.ok files)
    (hw : fs.write (filePathOf dir e.Name) (manifestOf lower cfgs fs dir e) = some err) :
    generateLoop lower dir version fs cfgs (e :: es) st =
      (some (GenError.mk err (msgWrite (filePathOf dir e.Name))),
        GenState.mk
          (registerFiles lower cfgs (versionDirOf dir e.Name) (listingOf fs dir e)
            st.SpokeVersionsMap)
          (st.listed ++ [versionDirOf dir e.Name])
          (st.writes ++ [writeOf lower cfgs fs dir e])) := by
  have hf := listingOf_ok fs dir e files hl
  rw [generateLoop, skip_cond, h]
  simp only [Bool.not_true, Bool.false_eq_true, if_false, hl]
  rw [foldl_processFile_fst, foldl_processFile_snd]
  simp only [manifestOf, hf, List.nil_append] at hw ⊢
  simp only [hw, writeOf, manifestOf, hf]

theorem generateLoop_ok (lower : Char → Char) (dir version : String) (fs : FS)
    (cfgs : List terraformedInput) (e : DirEntry) (es : List DirEntry) (st : GenState)
    (files : List DirEntry) (h : isSpoke version e = true)
    (hl : fs.readDir (versionDirOf dir e.Name) = Except.ok files)
    (hw : fs.write (filePathOf dir e.Name) (manifestOf lower cfgs fs dir e) = none) :
    generateLoop lower dir version fs cfgs (e :: es) st =
      generateLoop lower dir version fs cfgs es
        (GenState.mk
          (registerFiles lower cfgs (versionDirOf dir e.Name) (listingOf fs dir e)
            st.SpokeVersionsMap)
          (st.listed ++ [versionDirOf dir e.Name])
          (st.writes ++ [writeOf lower cfgs fs dir e])) := by
  have hf := listingOf_ok fs dir e files hl
  rw [generateLoop, skip_cond, h]
  simp only [Bool.not_true, Bool.false_eq_true, if_false, hl]
  rw [foldl_processFile_fst, foldl_processFile_snd]
  simp only [manifestOf, hf, List.nil_append] at hw ⊢
  simp only [hw, writeOf, manifestOf, hf]

theorem isOk_iff {α : Type} (x : Except IOError α) : x.isOk = true ↔ ∃ a, x = Except.ok a := by
  cases x <;> simp [Except.isOk, Except.toBool]

theorem generateLoop_append (lower : Char → Char) (dir version : String) (fs : FS)
    (cfgs : List terraformedInput) (front rest : List DirEntry) (st : GenState)
    (h : allSucceed lower version cfgs fs dir front) :
    generateLoop lower dir version fs cfgs (front ++ rest) st =
      generateLoop lower dir version fs cfgs rest
        (GenState.mk
          (registryThrough lower cfgs fs dir (spokesOf version front) st.SpokeVersionsMap)
          (st.listed ++ (spokesOf version front).map (fun e => versionDirOf dir e.Name))
          (st.writes ++ (spokesOf version front).map (writeOf lower cfgs fs dir))) := by
  induction front generalizing st with
  | nil => simp [spokesOf, registryThrough]
  | cons e es ih =>
    have hes : allSucceed lower version cfgs fs dir es :=
      fun x hx => h x (List.mem_cons_of_mem _ hx)
    cases hs : isSpoke version e with
    | false =>
      rw [List.cons_append, generateLoop_skip _ _ _ _ _ _ _ _ hs, ih st hes]
      simp [spokesOf, List.filter_cons, hs]
    | true =>
      obtain ⟨hl, hw⟩ := h e (by simp) hs
      obtain ⟨files, hl⟩ := (isOk_iff _).1 hl
      rw [List.cons_append, generateLoop_ok _ _ _ _ _ _ _ _ files hs hl hw, ih _ hes]
      simp [spokesOf, List.filter_cons, hs, registryThrough]

theorem generateLoop_nil (lower : Char → Char) (dir version : String) (fs : FS)
    (cfgs : List terraformedInput) (st : GenState) :
    generateLoop lower dir version fs cfgs [] st = (none, st) := rfl

theorem generateLoop_registry (lower : Char → Char) (dir version : String) (fs : FS)
    (cfgs : List terraformedInput) (entries : List DirEntry) (st : GenState) :
    (generateLoop lower dir version fs cfgs entries st).2.SpokeVersionsMap =
      registryThrough lower cfgs fs dir
        (processedSpokes lower cfgs fs dir (spokesOf version entries)) st.SpokeVersionsMap := by
  induction entries generalizing st with
  | nil => rfl
  | cons e es ih =>
    cases hs : isSpoke version e with
    | false =>
      rw [generateLoop_skip _ _ _ _ _ _ _ _ hs, ih]
      simp [spokesOf, List.filter_cons, hs]
    | true =>
      have hsp : spokesOf version (e :: es) = e :: spokesOf version es := by
        simp [spokesOf, List.filter_cons, hs]
      rw [hsp]
      cases hl : fs.readDir (versionDirOf dir e.Name) with
      | error err =>
        rw [generateLoop_list_error _ _ _ _ _ _ _ _ err hs hl]
        simp [processedSpokes, hl, registryThrough]
      | ok files =>
        cases hw : fs.write (filePathOf dir e.Name) (manifestOf lower cfgs fs dir e) with
        | some err =>
          rw [generateLoop_write_error _ _ _ _ _ _ _ _ files err hs hl hw]
          simp [processedSpokes, hl, hw, registryThrough]
        | none =>
          rw [generateLoop_ok _ _ _ _ _ _ _ _ files hs hl hw, ih]
          simp [processedSpokes, hl, hw, registryThrough]

theorem generateLoop_error_of_unreadable (lower : Char → Char) (dir version : String) (fs : FS)
    (cfgs : List terraformedInput) (entries : List DirEntry) (st : GenState) (e : DirEntry)
    (err : IOError) (hmem : e ∈ entries) (hs : isSpoke version e = true)
    (hfail : fs.readDir (versionDirOf dir e.Name) = Except.error err) :
    (generateLoop lower dir version fs cfgs entries st).1 ≠ none := by
  induction entries generalizing st with
  | nil => simp at hmem
  | cons x xs ih =>
    cases hx : isSpoke version x with
    | false =>
      have hne : e ≠ x := fun h => by rw [h, hx] at hs; exact absurd hs (by simp)
      rw [generateLoop_skip _ _ _ _ _ _ _ _ hx]
      exact ih _ ((List.mem_cons.1 hmem).resolve_left hne)
    | true =>
      cases hl : fs.readDir (versionDirOf dir x.Name) with
      | error err2 =>
        rw [generateLoop_list_error _ _ _ _ _ _ _ _ err2 hx hl]
        simp
      | ok files =>
        have hne : e ≠ x := fun h => by rw [h, hl] at hfail; exact absurd hfail (by simp)
        cases hw : fs.write (filePathOf dir x.Name) (manifestOf lower cfgs fs dir x) with
        | some err2 =>
          rw [generateLoop_write_error _ _ _ _ _ _ _ _ files err2 hx hl hw]
          simp
        | none =>
          rw [generateLoop_ok _ _ _ _ _ _ _ _ files hx hl hw]
          exact ih _ ((List.mem_cons.1 hmem).resolve_left hne)

theorem isSpoke_iff (version : String) (e : DirEntry) :
    isSpoke version e = true ↔ e.IsDir = true ∧ e.Name ≠ version := by
  simp [isSpoke]

theorem spokesOf_eq (version : String) (entries : List DirEntry) :
    spokesOf version entries =
      entries.filter (fun e => e.IsDir && decide (e.Name ≠ version)) := rfl

/-! ## The registry -/

theorem keyOf_has_dot (c : terraformedInput) : '.' ∈ (keyOf c).data := by
  simp [keyOf, sprintfDot, String.data_append]

theorem keyOf_ne_kind (cfgs : List terraformedInput) (hdot : ∀ d ∈ cfgs, '.' ∉ d.Kind.data)
    (c d : terraformedInput) (hd : d ∈ cfgs) : keyOf c ≠ d.Kind := by
  intro h
  exact hdot d hd (h ▸ keyOf_has_dot c)

theorem noKindKey_set (cfgs : List terraformedInput) (hdot : ∀ d ∈ cfgs, '.' ∉ d.Kind.data)
    (r : Registry) (c : terraformedInput) (v : List String) (h : NoKindKey cfgs r) :
    NoKindKey cfgs (r.set (keyOf c) v) := by
  intro d hd
  have hne : d.Kind ≠ keyOf c := fun e => keyOf_ne_kind cfgs hdot c d hd e.symm
  simp [Registry.set, hne, h d hd]

theorem processFile_noKindKey (lower : Char → Char) (cfgs : List terraformedInput)
    (vd : String) (acc : List Resource × Registry) (f : DirEntry)
    (h : NoKindKey cfgs acc.2) :
    (processFile lower cfgs vd acc f).2 =
      match resolveFile lower cfgs f with
      | none => acc.2
      | some c => acc.2.set (keyOf c) [filepathBase vd] := by
  rw [processFile_eq]
  cases hr : resolveFile lower cfgs f with
  | none => rfl
  | some c =>
    have hc := resolveFile_mem lower cfgs f c hr
    simp [Registry.read, h c hc]

theorem registerFiles_lookup (lower : Char → Char) (cfgs : List terraformedInput)
    (hdot : ∀ d ∈ cfgs, '.' ∉ d.Kind.data) (vd : String) (files : List DirEntry)
    (r : Registry) (h : NoKindKey cfgs r) (k : String) :
    NoKindKey cfgs (registerFiles lower cfgs vd files r) ∧
    registerFiles lower cfgs vd files r k =
      if files.any (fileHasKey lower cfgs k) = true then some [filepathBase vd] else r k := by
  induction files generalizing r with
  | nil => exact ⟨h, by simp [registerFiles_nil]⟩
  | cons f fs ih =>
    rw [registerFiles_cons]
    have hstep := processFile_noKindKey lower cfgs vd ([], r) f h
    cases hr : resolveFile lower cfgs f with
    | none =>
      rw [hr] at hstep
      simp only at hstep
      rw [hstep]
      have := ih r h
      refine ⟨this.1, ?_⟩
      rw [this.2]
      simp [List.any_cons, fileHasKey, hr]
    | some c =>
      rw [hr] at hstep
      simp only at hstep
      rw [hstep]
      have := ih _ (noKindKey_set cfgs hdot r c [filepathBase vd] h)
      refine ⟨this.1, ?_⟩
      rw [this.2]
      by_cases hk : keyOf c = k
      · by_cases hany : fs.any (fileHasKey lower cfgs k) = true
        · simp [List.any_cons, hany]
        · simp [List.any_cons, hany, fileHasKey, hr, hk, Registry.set]
      · have hk2 : ¬ k = keyOf c := fun e => hk e.symm
        by_cases hany : fs.any (fileHasKey lower cfgs k) = true
        · simp [List.any_cons, hany]
        · simp [List.any_cons, hany, fileHasKey, hr, hk, hk2, Registry.set]

theorem registryThrough_snoc (lower : Char → Char) (cfgs : List terraformedInput) (fs : FS)
    (dir : String) (spokes : List DirEntry) (e : DirEntry) (r : Registry) :
    registryThrough lower cfgs fs dir (spokes ++ [e]) r =
      registerFiles lower cfgs (versionDirOf dir e.Name) (listingOf fs dir e)
        (registryThrough lower cfgs fs dir spokes r) := by
  simp [registryThrough, List.foldl_append]

theorem registryThrough_lookup (lower : Char → Char) (cfgs : List terraformedInput)
    (hdot : ∀ d ∈ cfgs, '.' ∉ d.Kind.data) (fs : FS) (dir : String)
    (spokes : List DirEntry) (r : Registry) (h : NoKindKey cfgs r) (k : String) :
    NoKindKey cfgs (registryThrough lower cfgs fs dir spokes r) ∧
    registryThrough lower cfgs fs dir spokes r k =
      match spokes.reverse.find? (matchedIn lower cfgs fs dir k) with
      | some e => some [spokeName dir e]
      | none => r k := by
  induction spokes using List.reverseRecOn with
  | nil => exact ⟨h, rfl⟩
  | append_singleton sp e ih =>
    rw [registryThrough_snoc]
    have hreg := registerFiles_lookup lower cfgs hdot (versionDirOf dir e.Name)
      (listingOf fs dir e) _ ih.1 k
    refine ⟨hreg.1, ?_⟩
    rw [hreg.2, List.reverse_append, List.reverse_singleton, List.singleton_append,
      List.find?_cons]
    by_cases hm : matchedIn lower cfgs fs dir k e = true
    · have hm2 : (listingOf fs dir e).any (fileHasKey lower cfgs k) = true := hm
      simp [hm, hm2, spokeName]
    · have hm2 : ¬ (listingOf fs dir e).any (fileHasKey lower cfgs k) = true := hm
      have hm3 : matchedIn lower cfgs fs dir k e = false := by simpa using hm
      rw [if_neg hm2, hm3, ih.2]

theorem generateLoop_writes (lower : Char → Char) (dir version : String) (fs : FS)
    (cfgs : List terraformedInput) (entries : List DirEntry) (st : GenState) :
    (generateLoop lower dir version fs cfgs entries st).2.writes =
      st.writes ++ (processedSpokes lower cfgs fs dir (spokesOf version entries)).map
        (writeOf lower cfgs fs dir) := by
  induction entries generalizing st with
  | nil => simp [generateLoop_nil, spokesOf, processedSpokes]
  | cons e es ih =>
    cases hs : isSpoke version e with
    | false =>
      rw [generateLoop_skip _ _ _ _ _ _ _ _ hs, ih]
      simp [spokesOf, List.filter_cons, hs]
    | true =>
      have hsp : spokesOf version (e :: es) = e :: spokesOf version es := by
        simp [spokesOf, List.filter_cons, hs]
      rw [hsp]
      cases hl : fs.readDir (versionDirOf dir e.Name) with
      | error err =>
        rw [generateLoop_list_error _ _ _ _ _ _ _ _ err hs hl]
        simp [processedSpokes, hl]
      | ok files =>
        cases hw : fs.write (filePathOf dir e.Name) (manifestOf lower cfgs fs dir e) with
        | some err =>
          rw [generateLoop_write_error _ _ _ _ _ _ _ _ files err hs hl hw]
          simp [processedSpokes, hl, hw]
        | none =>
          rw [generateLoop_ok _ _ _ _ _ _ _ _ files hs hl hw, ih]
          simp [processedSpokes, hl, hw]

theorem Generate_registry (lower : Char → Char) (cg : ConversionConvertibleGenerator) (fs : FS)
    (cfgs : List terraformedInput) :
    (Generate lower cg fs cfgs).2.SpokeVersionsMap =
      registryThrough lower cfgs fs cg.LocalDirectoryPath (processedBy lower cg fs cfgs)
        cg.SpokeVersionsMap := by
  unfold Generate processedBy scanEntries
  cases hroot : fs.readDir cg.LocalDirectoryPath with
  | error err => rfl
  | ok entries => exact generateLoop_registry _ _ _ _ _ _ _

theorem Generate_writes (lower : Char → Char) (cg : ConversionConvertibleGenerator) (fs : FS)
    (cfgs : List terraformedInput) :
    (Generate lower cg fs cfgs).2.writes =
      (processedBy lower cg fs cfgs).map (writeOf lower cfgs fs cg.LocalDirectoryPath) := by
  unfold Generate processedBy scanEntries
  cases hroot : fs.readDir cg.LocalDirectoryPath with
  | error err => rfl
  | ok entries =>
    have := generateLoop_writes lower cg.LocalDirectoryPath cg.version fs cfgs entries
      (GenState.mk cg.SpokeVersionsMap [cg.LocalDirectoryPath] [])
    simpa using this

theorem noKindKey_of_inv (cfgs : List terraformedInput) (r : Registry)
    (h : RegistryInv cfgs r) : NoKindKey cfgs r := by
  intro d hd
  cases hv : r d.Kind with
  | none => rfl
  | some v => exact absurd rfl ((h _ v hv).2.1 d hd)

theorem matchedIn_key (lower : Char → Char) (cfgs : List terraformedInput) (fs : FS)
    (dir k : String) (e : DirEntry) (h : matchedIn lower cfgs fs dir k e = true) :
    ∃ c ∈ cfgs, keyOf c = k := by
  unfold matchedIn at h
  rw [List.any_eq_true] at h
  obtain ⟨f, _, hf⟩ := h
  unfold fileHasKey at hf
  cases hr : resolveFile lower cfgs f with
  | none => simp [hr] at hf
  | some c =>
    simp only [hr, decide_eq_true_eq] at hf
    exact ⟨c, resolveFile_mem lower cfgs f c hr, hf⟩

/-! ## The version directory is not the scan directory -/

theorem splitSep_pieces (p : List Char) : ∀ x ∈ splitSep p, '/' ∉ x := by
  induction p with
  | nil => simp [splitSep]
  | cons c cs ih =>
    by_cases hc : c = '/'
    · intro x hx
      simp only [splitSep, hc, if_true, List.mem_cons] at hx
      rcases hx with h | h
      · simp [h]
      · exact ih x h
    · intro x hx
      simp only [splitSep, hc, if_false] at hx
      cases hs : splitSep cs with
      | nil => exact absurd hs (splitSep_ne_nil cs)
      | cons y ys =>
        rw [hs] at hx ih
        simp only [List.mem_cons] at hx
        rcases hx with h | h
        · rw [h]
          intro hm
          rcases List.mem_cons.1 hm with h1 | h1
          · exact hc h1.symm
          · exact ih y (by simp) h1
        · exact ih x (List.mem_cons_of_mem _ h)

theorem cleanStep_plain (rooted : Bool) (kept : List (List Char)) (el : List Char)
    (hk : ∀ x ∈ kept, plainEl x) (hel : '/' ∉ el) :
    ∀ x ∈ cleanStep rooted kept el, plainEl x := by
  unfold cleanStep
  by_cases h1 : el = [] ∨ el = ['.']
  · simpa [h1] using hk
  · have hne : el ≠ [] := fun e => h1 (Or.inl e)
    by_cases h2 : el = ['.', '.']
    · rw [if_neg h1, if_pos h2]
      cases kept with
      | nil =>
        cases rooted
        · intro x hx
          simp only [Bool.false_eq_true, if_false, List.mem_singleton] at hx
          exact hx ▸ ⟨hne, hel⟩
        · simp
      | cons top rest =>
        by_cases h3 : top = ['.', '.'] ∧ rooted = false
        · simp only [h3, and_self, if_true]
          intro x hx
          rcases List.mem_cons.1 hx with h | h
          · exact h ▸ ⟨hne, hel⟩
          · exact hk x (by rw [h3.1]; exact h)
        · simp only [h3, if_false]
          exact fun x hx => hk x (List.mem_cons_of_mem _ hx)
    · rw [if_neg h1, if_neg h2]
      intro x hx
      rcases List.mem_cons.1 hx with h | h
      · exact h ▸ ⟨hne, hel⟩
      · exact hk x h

theorem foldl_cleanStep_plain (rooted : Bool) (els : List (List Char))
    (kept : List (List Char)) (hk : ∀ x ∈ kept, plainEl x) (hels : ∀ x ∈ els, '/' ∉ x) :
    ∀ x ∈ els.foldl (cleanStep rooted) kept, plainEl x := by
  induction els generalizing kept with
  | nil => simpa using hk
  | cons el rest ih =>
    rw [List.foldl_cons]
    exact ih _ (cleanStep_plain rooted kept el hk (hels el (by simp)))
      (fun x hx => hels x (List.mem_cons_of_mem _ hx))

theorem keptOf_plain (p : List Char) : ∀ x ∈ keptOf p, plainEl x :=
  foldl_cleanStep_plain _ _ [] (by simp) (splitSep_pieces p)

theorem splitSep_joinSep (l : List (List Char)) (hl : l ≠ []) (h : ∀ x ∈ l, '/' ∉ x) :
    splitSep (joinSep l) = l := by
  induction l with
  | nil => exact absurd rfl hl
  | cons x xs ih =>
    cases xs with
    | nil => simpa [joinSep] using splitSep_no_sep x (h x (by simp))
    | cons y ys =>
      rw [joinSep, splitSep_append_sep, splitSep_no_sep x (h x (by simp)),
        ih (by simp) (fun z hz => h z (List.mem_cons_of_mem _ hz))]
      rfl

theorem rootedOf_joinSep (x : List Char) (xs : List (List Char)) (hx : plainEl x) :
    rootedOf (joinSep (x :: xs)) = false := by
  cases x with
  | nil => exact absurd rfl hx.1
  | cons c cs =>
    have hc : c ≠ '/' := fun e => hx.2 (by simp [e])
    cases xs with
    | nil => simp [joinSep, rootedOf, hc]
    | cons y ys => simp [joinSep, rootedOf, hc]

theorem foldl_cleanStep_ne (rooted : Bool) (front : List (List Char)) (n : List Char)
    (hn : validEl n) (k : List (List Char)) :
    (front ++ k.reverse ++ [n]).foldl (cleanStep rooted) [] ≠ k := by
  induction k with
  | nil =>
    rw [List.foldl_append, List.foldl_cons, List.foldl_nil,
      cleanStep_valid _ _ _ hn.1 hn.2.2.1 hn.2.2.2]
    simp
  | cons x k1 ih =>
    rw [List.foldl_append, List.foldl_cons, List.foldl_nil,
      cleanStep_valid _ _ _ hn.1 hn.2.2.1 hn.2.2.2]
    intro h
    rw [List.cons.injEq] at h
    apply ih
    have h2 := h.2
    rw [List.reverse_cons, ← h.1, ← List.append_assoc] at h2
    exact h2

theorem cleanChars_snoc_ne (d n : List Char) (hd : d ≠ []) (hn : validEl n) :
    cleanChars (d ++ '/' :: n) ≠ d := by
  intro h
  rw [cleanChars_eq _ (by simp), rootedOf_append _ _ hd, keptOf_snoc d n hd hn] at h
  have hplain : ∀ x ∈ (keptOf d).reverse ++ [n], '/' ∉ x := by
    intro x hx
    rcases List.mem_append.1 hx with h1 | h1
    · exact (keptOf_plain d x (List.mem_reverse.1 h1)).2
    · rw [List.mem_singleton] at h1
      exact h1 ▸ hn.2.1
  have hsplit := splitSep_joinSep ((keptOf d).reverse ++ [n]) (by simp) hplain
  have hkept : keptOf d = (splitSep d).foldl (cleanStep (rootedOf d)) [] := rfl
  cases hr : rootedOf d with
  | true =>
    rw [hr] at h hkept
    have hd2 : d = '/' :: joinSep ((keptOf d).reverse ++ [n]) := by
      simpa [renderKept] using h.symm
    have hs : splitSep d = [[]] ++ (keptOf d).reverse ++ [n] := by
      conv_lhs => rw [hd2]
      simp [splitSep, hsplit]
    rw [hs] at hkept
    exact foldl_cleanStep_ne true [[]] n hn (keptOf d) hkept.symm
  | false =>
    rw [hr] at h hkept
    have hd2 : d = joinSep ((keptOf d).reverse ++ [n]) := by
      simpa [renderKept] using h.symm
    have hs : splitSep d = [] ++ (keptOf d).reverse ++ [n] := by
      conv_lhs => rw [hd2]
      simp [hsplit]
    rw [hs] at hkept
    exact foldl_cleanStep_ne false [] n hn (keptOf d) hkept.symm

/-- The version directory of a valid name is not the scan directory. -/
theorem versionDirOf_ne_dir (d n : String) (hn : validName n) : versionDirOf d n ≠ d := by
  intro h
  unfold versionDirOf at h
  rw [filepathJoin_two d n hn] at h
  have h2 : cleanChars (joinedTo d.data n.data) = d.data := congrArg String.data h
  by_cases hd : d.data = []
  · obtain ⟨front, h3, _⟩ := cleanChars_joinedTo d.data n.data hn
    rw [h3, hd] at h2
    exact hn.1 (List.append_eq_nil.1 h2).2
  · simp only [joinedTo, hd, if_false] at h2
    exact cleanChars_snoc_ne d.data n.data hd hn h2

/-! ## A file that resolves to no descriptor -/

theorem withListing_readDir_ne (fs : FS) (path p : String) (files : List DirEntry)
    (h : p ≠ path) : (fs.withListing path files).readDir p = fs.readDir p := by
  simp [FS.withListing, h]

theorem withListing_readDir_eq (fs : FS) (path : String) (files : List DirEntry) :
    (fs.withListing path files).readDir path = Except.ok files := by
  simp [FS.withListing]

theorem registerFiles_skip (lower : Char → Char) (cfgs : List terraformedInput) (v : String)
    (front back : List DirEntry) (f : DirEntry) (r : Registry)
    (hres : resolveFile lower cfgs f = none) :
    registerFiles lower cfgs v (front ++ f :: back) r =
      registerFiles lower cfgs v (front ++ back) r := by
  unfold registerFiles
  rw [List.foldl_append, List.foldl_cons, processFile_eq, hres, List.foldl_append]

theorem resourcesOf_skip (lower : Char → Char) (cfgs : List terraformedInput)
    (front back : List DirEntry) (f : DirEntry) (hres : resolveFile lower cfgs f = none) :
    resourcesOf lower cfgs (front ++ f :: back) = resourcesOf lower cfgs (front ++ back) := by
  simp [resourcesOf, List.filterMap_append, List.filterMap_cons, hres]

theorem listingOf_withListing (lower : Char → Char) (cfgs : List terraformedInput) (fs : FS)
    (dir vd : String) (front back : List DirEntry) (f : DirEntry)
    (hfiles : fs.readDir vd = Except.ok (front ++ f :: back))
    (hres : resolveFile lower cfgs f = none) (s : DirEntry) :
    resourcesOf lower cfgs (listingOf (fs.withListing vd (front ++ back)) dir s) =
      resourcesOf lower cfgs (listingOf fs dir s) ∧
    ∀ v r, registerFiles lower cfgs v (listingOf (fs.withListing vd (front ++ back)) dir s) r =
      registerFiles lower cfgs v (listingOf fs dir s) r := by
  by_cases hp : versionDirOf dir s.Name = vd
  · have h1 : listingOf (fs.withListing vd (front ++ back)) dir s = front ++ back := by
      simp [listingOf, hp, FS.withListing]
    have h2 : listingOf fs dir s = front ++ f :: back := by
      simp [listingOf, hp, hfiles]
    rw [h1, h2]
    exact ⟨(resourcesOf_skip lower cfgs front back f hres).symm,
      fun v r => (registerFiles_skip lower cfgs v front back f r hres).symm⟩
  · have h1 : listingOf (fs.withListing vd (front ++ back)) dir s = listingOf fs dir s := by
      simp [listingOf, withListing_readDir_ne fs vd _ _ hp]
    rw [h1]
    exact ⟨rfl, fun _ _ => rfl⟩

theorem generateLoop_withListing (lower : Char → Char) (dir version : String) (fs : FS)
    (cfgs : List terraformedInput) (vd : String) (front back : List DirEntry) (f : DirEntry)
    (hfiles : fs.readDir vd = Except.ok (front ++ f :: back))
    (hres : resolveFile lower cfgs f = none) (entries : List DirEntry) (st : GenState) :
    generateLoop lower dir version (fs.withListing vd (front ++ back)) cfgs entries st =
      generateLoop lower dir version fs cfgs entries st := by
  induction entries generalizing st with
  | nil => rfl
  | cons s es ih =>
    cases hs : isSpoke version s with
    | false =>
      rw [generateLoop_skip _ _ _ _ _ _ _ _ hs, generateLoop_skip _ _ _ _ _ _ _ _ hs, ih]
    | true =>
      have hlist := listingOf_withListing lower cfgs fs dir vd front back f hfiles hres s
      have hman : manifestOf lower cfgs (fs.withListing vd (front ++ back)) dir s =
          manifestOf lower cfgs fs dir s := by
        simp only [manifestOf, hlist.1]
      have hwo : writeOf lower cfgs (fs.withListing vd (front ++ back)) dir s =
          writeOf lower cfgs fs dir s := by
        simp only [writeOf, hman]
      cases hl : fs.readDir (versionDirOf dir s.Name) with
      | error err =>
        have hp : versionDirOf dir s.Name ≠ vd := by
          intro e
          rw [e, hfiles] at hl
          exact absurd hl (by simp)
        have hl2 : (fs.withListing vd (front ++ back)).readDir (versionDirOf dir s.Name) =
            Except.error err := by
          rw [withListing_readDir_ne fs vd _ _ hp, hl]
        rw [generateLoop_list_error _ _ _ _ _ _ _ _ err hs hl,
          generateLoop_list_error _ _ _ _ _ _ _ _ err hs hl2]
      | ok files =>
        have hl2 : ∃ files2, (fs.withListing vd (front ++ back)).readDir
            (versionDirOf dir s.Name) = Except.ok files2 := by
          by_cases hp : versionDirOf dir s.Name = vd
          · exact ⟨front ++ back, by rw [hp]; exact withListing_readDir_eq fs vd _⟩
          · exact ⟨files, by rw [withListing_readDir_ne fs vd _ _ hp, hl]⟩
        obtain ⟨files2, hl2⟩ := hl2
        cases hw : fs.write (filePathOf dir s.Name) (manifestOf lower cfgs fs dir s) with
        | some err =>
          have hw2 : (fs.withListing vd (front ++ back)).write (filePathOf dir s.Name)
              (manifestOf lower cfgs (fs.withListing vd (front ++ back)) dir s) = some err := by
            rw [hman]; exact hw
          rw [generateLoop_write_error _ _ _ _ _ _ _ _ files err hs hl hw,
            generateLoop_write_error _ _ _ _ _ _ _ _ files2 err hs hl2 hw2, hlist.2, hwo]
        | none =>
          have hw2 : (fs.withListing vd (front ++ back)).write (filePathOf dir s.Name)
              (manifestOf lower cfgs (fs.withListing vd (front ++ back)) dir s) = none := by
            rw [hman]; exact hw
          rw [generateLoop_ok _ _ _ _ _ _ _ _ files hs hl hw,
            generateLoop_ok _ _ _ _ _ _ _ _ files2 hs hl2 hw2, hlist.2, hwo, ih]

theorem Generate_withListing (lower : Char → Char) (cg : ConversionConvertibleGenerator)
    (fs : FS) (cfgs : List terraformedInput) (vd : String) (front back : List DirEntry)
    (f : DirEntry) (hfiles : fs.readDir vd = Except.ok (front ++ f :: back))
    (hres : resolveFile lower cfgs f = none) (hvd : vd ≠ cg.LocalDirectoryPath) :
    Generate lower cg (fs.withListing vd (front ++ back)) cfgs = Generate lower cg fs cfgs := by
  unfold Generate
  rw [withListing_readDir_ne fs vd _ _ (fun e => hvd e.symm)]
  cases fs.readDir cg.LocalDirectoryPath with
  | error err => rfl
  | ok entries => exact generateLoop_withListing _ _ _ _ _ _ _ _ _ hfiles hres _ _

theorem processedSpokes_head (lower : Char → Char) (cfgs : List terraformedInput) (fs : FS)
    (dir : String) (e : DirEntry) (es files : List DirEntry)
    (hl : fs.readDir (versionDirOf dir e.Name) = Except.ok files) :
    ∃ later, processedSpokes lower cfgs fs dir (e :: es) = e :: later := by
  unfold processedSpokes
  rw [hl]
  cases fs.write (filePathOf dir e.Name) (manifestOf lower cfgs fs dir e) with
  | some err => exact ⟨[], rfl⟩
  | none => exact ⟨_, rfl⟩

/-- The write of a spoke version that the run reaches. -/
theorem Generate_writes_reached (lower : Char → Char) (cg : ConversionConvertibleGenerator)
    (fs : FS) (cfgs : List terraformedInput) (front back files : List DirEntry) (e : DirEntry)
    (hroot : fs.readDir cg.LocalDirectoryPath = Except.ok (front ++ e :: back))
    (hall : allSucceed lower cg.version cfgs fs cg.LocalDirectoryPath front)
    (hs : isSpoke cg.version e = true)
    (hl : fs.readDir (versionDirOf cg.LocalDirectoryPath e.Name) = Except.ok files) :
    ∃ later, (Generate lower cg fs cfgs).2.writes =
      (spokesOf cg.version front).map (writeOf lower cfgs fs cg.LocalDirectoryPath) ++
        writeOf lower cfgs fs cg.LocalDirectoryPath e :: later := by
  have hgen : Generate lower cg fs cfgs =
      generateLoop lower cg.LocalDirectoryPath cg.version fs cfgs (front ++ e :: back)
        (GenState.mk cg.SpokeVersionsMap [cg.LocalDirectoryPath] []) := by
    simp only [Generate, hroot]
  have hsp : spokesOf cg.version (e :: back) = e :: spokesOf cg.version back := by
    simp [spokesOf, List.filter_cons, hs]
  obtain ⟨later, hlater⟩ := processedSpokes_head lower cfgs fs cg.LocalDirectoryPath e
    (spokesOf cg.version back) files hl
  refine ⟨later.map (writeOf lower cfgs fs cg.LocalDirectoryPath), ?_⟩
  rw [hgen, generateLoop_append _ _ _ _ _ _ _ _ hall, generateLoop_writes, hsp, hlater]
  simp

/-! ## The claims -/

/-- C1: when the scan directory and every spoke version directory can be
listed and every write succeeds, `Generate` returns no error and the written
paths are, in scan order, the path `<scanDir>/<name>/zz_generated.conversion.go`
of each entry that is a directory other than the hub version, each with the
manifest of that version; with the names of a real listing (valid, pairwise
different) no written path belongs to the hub version or to a non-directory,
and each written file lies directly in the directory named after its entry. -/
theorem C1_one_file_per_spoke (lower : Char → Char) (cg : ConversionConvertibleGenerator)
    (fs : FS) (cfgs : List terraformedInput) (entries : List DirEntry)
    (hroot : fs.readDir cg.LocalDirectoryPath = Except.ok entries)
    (hlist : ∀ e ∈ entries, e.IsDir = true → e.Name ≠ cg.version →
      (fs.readDir (versionDirOf cg.LocalDirectoryPath e.Name)).isOk = true)
    (hwrite : ∀ p v, fs.write p v = none) :
    (Generate lower cg fs cfgs).1 = none ∧
    (Generate lower cg fs cfgs).2.writes.map Prod.fst =
      (entries.filter (fun e => e.IsDir && decide (e.Name ≠ cg.version))).map
        (fun e => filepathJoin [cg.LocalDirectoryPath, e.Name, "zz_generated.conversion.go"]) ∧
    (Generate lower cg fs cfgs).2.writes.map Prod.snd =
      (entries.filter (fun e => e.IsDir && decide (e.Name ≠ cg.version))).map
        (manifestOf lower cfgs fs cg.LocalDirectoryPath) ∧
    ((∀ e ∈ entries, validName e.Name) → (entries.map DirEntry.Name).Nodup →
      ∀ e ∈ entries, (e.IsDir = false ∨ e.Name = cg.version) →
        filepathJoin [cg.LocalDirectoryPath, e.Name, "zz_generated.conversion.go"] ∉
          (Generate lower cg fs cfgs).2.writes.map Prod.fst) ∧
    (∀ e ∈ entries, validName e.Name →
      filepathJoin [cg.LocalDirectoryPath, e.Name, "zz_generated.conversion.go"] =
        filepathJoin [cg.LocalDirectoryPath, e.Name] ++ "/zz_generated.conversion.go" ∧
      filepathBase (filepathJoin [cg.LocalDirectoryPath, e.Name]) = e.Name) := by
  have hall : allSucceed lower cg.version cfgs fs cg.LocalDirectoryPath entries := by
    intro e he hs
    have hs2 : e.IsDir = true ∧ e.Name ≠ cg.version := by simpa [isSpoke] using hs
    exact ⟨hlist e he hs2.1 hs2.2, hwrite _ _⟩
  have hgen : Generate lower cg fs cfgs =
      (none, GenState.mk
        (registryThrough lower cfgs fs cg.LocalDirectoryPath (spokesOf cg.version entries)
          cg.SpokeVersionsMap)
        ([cg.LocalDirectoryPath] ++ (spokesOf cg.version entries).map
          (fun e => versionDirOf cg.LocalDirectoryPath e.Name))
        ([] ++ (spokesOf cg.version entries).map (writeOf lower cfgs fs cg.LocalDirectoryPath))) := by
    have h := generateLoop_append lower cg.LocalDirectoryPath cg.version fs cfgs entries []
      (GenState.mk cg.SpokeVersionsMap [cg.LocalDirectoryPath] []) hall
    rw [List.append_nil, generateLoop_nil] at h
    simp only [Generate, hroot]
    exact h
  have hpaths : (Generate lower cg fs cfgs).2.writes.map Prod.fst =
      (entries.filter (fun e => e.IsDir && decide (e.Name ≠ cg.version))).map
        (fun e => filepathJoin [cg.LocalDirectoryPath, e.Name, "zz_generated.conversion.go"]) := by
    rw [hgen]
    have hfil : spokesOf cg.version entries =
        entries.filter (fun e => e.IsDir && decide (e.Name ≠ cg.version)) := rfl
    simp [hfil, writeOf, filePathOf, Function.comp_def]
  refine ⟨by rw [hgen], hpaths, ?_, ?_, fun e _ hv =>
    ⟨filePathOf_eq cg.LocalDirectoryPath e.Name hv,
      filepathBase_versionDirOf cg.LocalDirectoryPath e.Name hv⟩⟩
  · rw [hgen]
    have hfil : spokesOf cg.version entries =
        entries.filter (fun e => e.IsDir && decide (e.Name ≠ cg.version)) := rfl
    simp [hfil, writeOf, Function.comp_def]
  · intro hvalid hnodup e he hskip hmem
    rw [hpaths, List.mem_map] at hmem
    obtain ⟨s, hs, hsp⟩ := hmem
    rw [List.mem_filter] at hs
    have hname : s.Name = e.Name :=
      filePathOf_inj cg.LocalDirectoryPath s.Name e.Name (hvalid s hs.1) (hvalid e he) hsp
    have hse : s = e := List.inj_on_of_nodup_map hnodup hs.1 he hname
    subst hse
    have h2 : s.IsDir = true ∧ s.Name ≠ cg.version := by simpa using hs.2
    rcases hskip with h | h
    · rw [h] at h2; exact absurd h2.1 (by simp)
    · exact h2.2 h

/-- C1, the scenario: hub `v1beta1`, directories `v1alpha1` and `v1beta1`
give exactly one write, under `v1alpha1`, with the manifest of `Bucket`. -/
theorem C1_one_file_per_spoke_witness :
    (Generate Char.toLower scenarioGen scenarioFS bucketCfgs).1 = none ∧
    (Generate Char.toLower scenarioGen scenarioFS bucketCfgs).2.writes.map Prod.fst =
      ["apis/s3/v1alpha1/zz_generated.conversion.go"] ∧
    (Generate Char.toLower scenarioGen scenarioFS bucketCfgs).2.writes.map Prod.snd =
      [RenderVars.mk "v1alpha1" [Resource.mk (CRD.mk "Bucket")]] ∧
    "apis/s3/v1beta1/zz_generated.conversion.go" ∉
      (Generate Char.toLower scenarioGen scenarioFS bucketCfgs).2.writes.map Prod.fst := by
  have h := C1_one_file_per_spoke Char.toLower scenarioGen scenarioFS bucketCfgs
    [DirEntry.mk "v1alpha1" true, DirEntry.mk "v1beta1" true] (by rfl) (by decide)
    (fun _ _ => rfl)
  refine ⟨h.1, h.2.1.trans (by decide), h.2.2.1.trans (by decide), ?_⟩
  exact h.2.2.2.1 (by decide) (by decide) (DirEntry.mk "v1beta1" true) (by decide)
    (Or.inr (by decide))

theorem resolveFile_type_file (lower : Char → Char) (cfgs : List terraformedInput)
    (foo : String) (f : DirEntry) (hfile : f.IsDir = false)
    (hname : f.Name = "zz_" ++ foo ++ "_types.go") (hne : foo ≠ "")
    (hline : '\n' ∉ foo.data) :
    resolveFile lower cfgs f = findKindTerraformedInput lower cfgs foo := by
  simp [resolveFile, hfile, hname, regexTypeFileSubmatch_exact foo hne hline]

theorem resourcesOf_append (lower : Char → Char) (cfgs : List terraformedInput)
    (a b : List DirEntry) :
    resourcesOf lower cfgs (a ++ b) = resourcesOf lower cfgs a ++ resourcesOf lower cfgs b := by
  simp [resourcesOf, List.filterMap_append]

/-- C2 as stated fails: for the non-empty `foo` made of `x`, a line feed and
`zz_bucket`, the file `zz_<foo>_types.go` of `v1alpha1` puts a resource into
the manifest written for `v1alpha1`, and no descriptor has the lowercased
kind `foo`; the dot of the pattern does not match the line feed and the match
starts at the second `zz_`. -/
theorem C2_type_file_line_feed_counterexample :
    ¬ ((DirEntry.mk ("zz_" ++ "x\nzz_bucket" ++ "_types.go") false ∈
          listingOf lineFeedFS scenarioGen.LocalDirectoryPath (DirEntry.mk "v1alpha1" true) ∧
        "x\nzz_bucket" ≠ "") →
      ((∃ w ∈ (Generate Char.toLower scenarioGen lineFeedFS bucketCfgs).2.writes,
          w.1 = "apis/s3/v1alpha1/zz_generated.conversion.go" ∧ w.2.Resources ≠ []) ↔
        ∃ d ∈ bucketCfgs, ToLower Char.toLower d.Kind = "x\nzz_bucket")) := by
  intro h
  have hl : ∃ w ∈ (Generate Char.toLower scenarioGen lineFeedFS bucketCfgs).2.writes,
      w.1 = "apis/s3/v1alpha1/zz_generated.conversion.go" ∧ w.2.Resources ≠ [] := by
    decide
  have hr : ¬ ∃ d ∈ bucketCfgs, ToLower Char.toLower d.Kind = "x\nzz_bucket" := by
    decide
  exact hr ((h ⟨by decide, by decide⟩).1 hl)

/-- C2, amended: in a version directory, a non-directory entry named
`zz_<foo>_types.go`, with `foo` not empty and without a line feed, adds a
resource entry to the manifest of that directory exactly when some descriptor
has the lowercased kind `foo`; the entry carries the kind of the first such
descriptor as the descriptor spells it; the manifest, with the name of the
directory as `APIVersion`, is what `Generate` writes for the directory when
the run reaches it; and when no descriptor matches, the loop body leaves its
accumulators as they were and `Generate` ends as it does without the file. -/
theorem C2_type_file_resource (lower : Char → Char) (cg : ConversionConvertibleGenerator)
    (fs : FS) (cfgs : List terraformedInput) (e f : DirEntry) (front back : List DirEntry)
    (foo : String)
    (hfiles : fs.readDir (versionDirOf cg.LocalDirectoryPath e.Name) =
      Except.ok (front ++ f :: back))
    (hfile : f.IsDir = false) (hname : f.Name = "zz_" ++ foo ++ "_types.go")
    (hne : foo ≠ "") (hline : '\n' ∉ foo.data) :
    ∃ contrib : List Resource,
      manifestOf lower cfgs fs cg.LocalDirectoryPath e =
        RenderVars.mk e.Name
          (resourcesOf lower cfgs front ++ contrib ++ resourcesOf lower cfgs back) ∧
      (∀ earlier later, fs.readDir cg.LocalDirectoryPath = Except.ok (earlier ++ e :: later) →
        e.IsDir = true → e.Name ≠ cg.version →
        (∀ s ∈ earlier, s.IsDir = true → s.Name ≠ cg.version →
          (fs.readDir (versionDirOf cg.LocalDirectoryPath s.Name)).isOk = true ∧
          fs.write (filePathOf cg.LocalDirectoryPath s.Name)
            (manifestOf lower cfgs fs cg.LocalDirectoryPath s) = none) →
        ∃ rest, (Generate lower cg fs cfgs).2.writes =
          (earlier.filter (fun s => s.IsDir && decide (s.Name ≠ cg.version))).map
              (writeOf lower cfgs fs cg.LocalDirectoryPath) ++
            (filepathJoin [cg.LocalDirectoryPath, e.Name, "zz_generated.conversion.go"],
              RenderVars.mk e.Name
                (resourcesOf lower cfgs front ++ contrib ++ resourcesOf lower cfgs back)) ::
              rest) ∧
      ((∃ d ∈ cfgs, ToLower lower d.Kind = foo) ↔ contrib ≠ []) ∧
      (∀ a d b, cfgs = a ++ d :: b →
        (∀ x ∈ a, ToLower lower x.Kind ≠ foo) → ToLower lower d.Kind = foo →
        contrib = [Resource.mk (CRD.mk d.Kind)]) ∧
      ((∀ d ∈ cfgs, ToLower lower d.Kind ≠ foo) →
        contrib = [] ∧ (∀ acc vd, processFile lower cfgs vd acc f = acc) ∧
        (validName e.Name →
          Generate lower cg
              (fs.withListing (versionDirOf cg.LocalDirectoryPath e.Name) (front ++ back)) cfgs =
            Generate lower cg fs cfgs)) := by
  have hres := resolveFile_type_file lower cfgs foo f hfile hname hne hline
  have hman : manifestOf lower cfgs fs cg.LocalDirectoryPath e =
      RenderVars.mk e.Name
        (resourcesOf lower cfgs front ++ resourcesOf lower cfgs [f] ++
          resourcesOf lower cfgs back) := by
    rw [manifestOf, listingOf_ok fs _ e _ hfiles,
      show front ++ f :: back = front ++ ([f] ++ back) from rfl, resourcesOf_append,
      resourcesOf_append, List.append_assoc]
  refine ⟨resourcesOf lower cfgs [f], hman, ?_, ?_, ?_, ?_⟩
  · intro earlier later hroot hdir hhub hearlier
    have hall : allSucceed lower cg.version cfgs fs cg.LocalDirectoryPath earlier :=
      fun s hs1 hs2 => hearlier s hs1 ((isSpoke_iff _ _).1 hs2).1 ((isSpoke_iff _ _).1 hs2).2
    obtain ⟨rest, hrest⟩ := Generate_writes_reached lower cg fs cfgs earlier later _ e hroot
      hall ((isSpoke_iff _ _).2 ⟨hdir, hhub⟩) hfiles
    refine ⟨rest, ?_⟩
    rw [hrest, spokesOf_eq]
    simp only [writeOf, hman, filePathOf]
  · rw [← findKind_isSome_iff]
    cases h : findKindTerraformedInput lower cfgs foo <;>
      simp [resourcesOf, List.filterMap_cons, hres, h]
  · intro a d b hc ha hd
    have h := findKind_first lower a b d foo ha hd
    rw [← hc] at h
    simp [resourcesOf, List.filterMap_cons, hres, h]
  · intro hnone
    have h := (findKind_eq_none lower cfgs foo).2 hnone
    have hres2 : resolveFile lower cfgs f = none := by rw [hres, h]
    refine ⟨by simp [resourcesOf, List.filterMap_cons, hres2], ?_, ?_⟩
    · intro acc vd
      rw [processFile_eq, hres2]
    · intro hvalid
      exact Generate_withListing lower cg fs cfgs _ front back f hfiles hres2
        (versionDirOf_ne_dir cg.LocalDirectoryPath e.Name hvalid)

/-- C2, amended, on the scenario: with the descriptor of `Bucket` and the file
`zz_bucket_types.go` in `v1alpha1`, the first write of `Generate` is the file
of `v1alpha1` with the manifest `{APIVersion "v1alpha1", Resources [{CRD
{Kind "Bucket"}}]}`. -/
theorem C2_type_file_resource_witness :
    (Generate Char.toLower scenarioGen scenarioFS bucketCfgs).2.writes.head? =
      some ("apis/s3/v1alpha1/zz_generated.conversion.go",
        RenderVars.mk "v1alpha1" [Resource.mk (CRD.mk "Bucket")]) := by
  obtain ⟨contrib, _, h2, _, h4, _⟩ := C2_type_file_resource Char.toLower scenarioGen
    scenarioFS bucketCfgs (DirEntry.mk "v1alpha1" true) (DirEntry.mk "zz_bucket_types.go" false)
    [] [] "bucket" (by rfl) rfl (by decide) (by decide) (by decide)
  have hc := h4 [] (terraformedInput.mk "Bucket" "s3") [] rfl (by simp) (by decide)
  obtain ⟨rest, hrest⟩ := h2 [] [DirEntry.mk "v1beta1" true] (by rfl) rfl (by decide)
    (by simp)
  rw [hrest, hc]
  simp only [List.filter_nil, List.map_nil, List.nil_append, List.head?_cons]
  exact congrArg some (by decide)

/-- C3 fails on the code: with the spoke versions `v1alpha1` and `v1alpha2`,
both holding `zz_bucket_types.go`, a successful run from the empty registry
leaves `[v1alpha2]` under `s3.Bucket`, not `[v1alpha1, v1alpha2]`, and nothing
under `Bucket`. -/
theorem C3_registry_keeps_last_version :
    (Generate Char.toLower scenarioGen twoSpokesFS bucketCfgs).1 = none ∧
    scenarioGen.SpokeVersionsMap "s3.Bucket" = none ∧
    (Generate Char.toLower scenarioGen twoSpokesFS bucketCfgs).2.SpokeVersionsMap "s3.Bucket" =
      some ["v1alpha2"] ∧
    (Generate Char.toLower scenarioGen twoSpokesFS bucketCfgs).2.SpokeVersionsMap "Bucket" =
      none ∧
    (Generate Char.toLower scenarioGen twoSpokesFS bucketCfgs).2.writes.map Prod.snd =
      [RenderVars.mk "v1alpha1" [Resource.mk (CRD.mk "Bucket")],
        RenderVars.mk "v1alpha2" [Resource.mk (CRD.mk "Bucket")]] := by
  refine ⟨by decide, by decide, by decide, by decide, by decide⟩

theorem not_type_file_form_of_head (name : String) (c : Char) (cs : List Char)
    (h : name.data = c :: cs) (hc : c ≠ 'z') :
    ¬ ∃ id ext : String, id ≠ "" ∧ ext ≠ "" ∧ name = "zz_" ++ id ++ "_types." ++ ext := by
  rintro ⟨id, ext, _, _, he⟩
  have := congrArg String.data he
  rw [h] at this
  simp only [String.data_append, List.cons_append, List.cons.injEq] at this
  exact hc this.1

theorem not_type_file_form_of_no_dot (name : String) (h : '.' ∉ name.data) :
    ¬ ∃ id ext : String, id ≠ "" ∧ ext ≠ "" ∧ name = "zz_" ++ id ++ "_types." ++ ext := by
  rintro ⟨id, ext, _, _, he⟩
  apply h
  rw [he]
  simp [String.data_append]

/-- C4 fails on the code: the names `backup_zz_bucket_types.go.orig` and
`zz_bucket_typesXgo` are not of the form `zz_<id>_types.<ext>`, and each of
them adds the resource `Bucket` to the manifest and an entry to the registry;
in a run the first one ends up in the manifest written for `v1alpha1`. -/
theorem C4_unanchored_pattern_accepts_malformed :
    (¬ ∃ id ext : String, id ≠ "" ∧ ext ≠ "" ∧
        "backup_zz_bucket_types.go.orig" = "zz_" ++ id ++ "_types." ++ ext) ∧
    (¬ ∃ id ext : String, id ≠ "" ∧ ext ≠ "" ∧
        "zz_bucket_typesXgo" = "zz_" ++ id ++ "_types." ++ ext) ∧
    (processFile Char.toLower bucketCfgs "apis/s3/v1alpha1" ([], emptyRegistry)
        (DirEntry.mk "backup_zz_bucket_types.go.orig" false)).1 =
      [Resource.mk (CRD.mk "Bucket")] ∧
    (processFile Char.toLower bucketCfgs "apis/s3/v1alpha1" ([], emptyRegistry)
        (DirEntry.mk "backup_zz_bucket_types.go.orig" false)).2 "s3.Bucket" =
      some ["v1alpha1"] ∧
    (processFile Char.toLower bucketCfgs "apis/s3/v1alpha1" ([], emptyRegistry)
        (DirEntry.mk "zz_bucket_typesXgo" false)).1 =
      [Resource.mk (CRD.mk "Bucket")] ∧
    (processFile Char.toLower bucketCfgs "apis/s3/v1alpha1" ([], emptyRegistry)
        (DirEntry.mk "zz_bucket_typesXgo" false)).2 "s3.Bucket" =
      some ["v1alpha1"] ∧
    (Generate Char.toLower scenarioGen strayFS bucketCfgs).2.writes =
      [("apis/s3/v1alpha1/zz_generated.conversion.go",
        RenderVars.mk "v1alpha1" [Resource.mk (CRD.mk "Bucket")])] := by
  refine ⟨?_, ?_, by decide, by decide, by decide, by decide, by decide⟩
  · exact not_type_file_form_of_head _ 'b' _ rfl (by decide)
  · exact not_type_file_form_of_no_dot _ (by decide)

/-- C5 as stated fails: `v1alpha2` cannot be listed, `Generate` returns an
error, and the file of `v1alpha1`, earlier in scan order, has been written. -/
theorem C5_no_partial_output_counterexample :
    ¬ ((∃ e ∈ [DirEntry.mk "v1alpha1" true, DirEntry.mk "v1alpha2" true],
          e.IsDir = true ∧ e.Name ≠ scenarioGen.version ∧
          (unreadableFS.readDir (versionDirOf scenarioGen.LocalDirectoryPath e.Name)).isOk
            = false) →
        (Generate Char.toLower scenarioGen unreadableFS bucketCfgs).1 ≠ none ∧
        (Generate Char.toLower scenarioGen unreadableFS bucketCfgs).2.writes = []) := by
  intro h
  have h1 := (h ⟨DirEntry.mk "v1alpha2" true, by decide, by decide, by decide, by rfl⟩).2
  have h2 : (Generate Char.toLower scenarioGen unreadableFS bucketCfgs).2.writes =
      [("apis/s3/v1alpha1/zz_generated.conversion.go",
        RenderVars.mk "v1alpha1" [Resource.mk (CRD.mk "Bucket")])] := by decide
  rw [h2] at h1
  exact absurd h1 (by simp)

/-- C5, amended: when a spoke version directory cannot be listed, `Generate`
returns an error; when that directory is the first step to fail, the error
wraps the listing error and names the directory, the writes are exactly those
of the spoke versions before it in scan order, and that version and the later
ones are neither written nor recorded in the registry. -/
theorem C5_writes_before_unreadable (lower : Char → Char) (cg : ConversionConvertibleGenerator)
    (fs : FS) (cfgs : List terraformedInput) (entries : List DirEntry) (e : DirEntry)
    (err : IOError)
    (hroot : fs.readDir cg.LocalDirectoryPath = Except.ok entries)
    (hmem : e ∈ entries) (hdir : e.IsDir = true) (hhub : e.Name ≠ cg.version)
    (hfail : fs.readDir (versionDirOf cg.LocalDirectoryPath e.Name) = Except.error err) :
    (Generate lower cg fs cfgs).1 ≠ none ∧
    (∀ front back, entries = front ++ e :: back →
      (∀ s ∈ front, s.IsDir = true → s.Name ≠ cg.version →
        (fs.readDir (versionDirOf cg.LocalDirectoryPath s.Name)).isOk = true ∧
        fs.write (filePathOf cg.LocalDirectoryPath s.Name)
          (manifestOf lower cfgs fs cg.LocalDirectoryPath s) = none) →
      (Generate lower cg fs cfgs).1 =
        some (GenError.mk err
          ("cannot list the directory entries for the source folder " ++
            versionDirOf cg.LocalDirectoryPath e.Name ++
            " while looking for the generated types")) ∧
      (Generate lower cg fs cfgs).2.writes.map Prod.fst =
        (front.filter (fun s => s.IsDir && decide (s.Name ≠ cg.version))).map
          (fun s => filepathJoin [cg.LocalDirectoryPath, s.Name, "zz_generated.conversion.go"]) ∧
      (Generate lower cg fs cfgs).2.SpokeVersionsMap =
        registryThrough lower cfgs fs cg.LocalDirectoryPath
          (front.filter (fun s => s.IsDir && decide (s.Name ≠ cg.version)))
          cg.SpokeVersionsMap) := by
  have hs : isSpoke cg.version e = true := (isSpoke_iff _ _).2 ⟨hdir, hhub⟩
  have hgen : Generate lower cg fs cfgs =
      generateLoop lower cg.LocalDirectoryPath cg.version fs cfgs entries
        (GenState.mk cg.SpokeVersionsMap [cg.LocalDirectoryPath] []) := by
    simp only [Generate, hroot]
  refine ⟨?_, ?_⟩
  · rw [hgen]
    exact generateLoop_error_of_unreadable _ _ _ _ _ _ _ e err hmem hs hfail
  · intro front back hsplit hfront
    have hall : allSucceed lower cg.version cfgs fs cg.LocalDirectoryPath front :=
      fun s hs1 hs2 => hfront s hs1 ((isSpoke_iff _ _).1 hs2).1 ((isSpoke_iff _ _).1 hs2).2
    rw [hgen, hsplit, generateLoop_append _ _ _ _ _ _ _ _ hall,
      generateLoop_list_error _ _ _ _ _ _ _ _ err hs hfail]
    refine ⟨rfl, ?_, rfl⟩
    simp [spokesOf_eq, writeOf, filePathOf, Function.comp_def]

/-- C5, amended, on the file system in which `v1alpha2` cannot be listed: the
run fails and what it has written is the file of `v1alpha1`. -/
theorem C5_writes_before_unreadable_witness :
    (Generate Char.toLower scenarioGen unreadableFS bucketCfgs).1 =
      some (GenError.mk denied
        ("cannot list the directory entries for the source folder apis/s3/v1alpha2" ++
          " while looking for the generated types")) ∧
    (Generate Char.toLower scenarioGen unreadableFS bucketCfgs).2.writes.map Prod.fst =
      ["apis/s3/v1alpha1/zz_generated.conversion.go"] := by
  have h := (C5_writes_before_unreadable Char.toLower scenarioGen unreadableFS bucketCfgs
    [DirEntry.mk "v1alpha1" true, DirEntry.mk "v1alpha2" true] (DirEntry.mk "v1alpha2" true)
    denied (by rfl) (by decide) rfl (by decide) (by rfl)).2
    [DirEntry.mk "v1alpha1" true] [] rfl
    (by
      intro s hs _ _
      rw [List.mem_singleton] at hs
      subst hs
      exact ⟨by rfl, rfl⟩)
  exact ⟨h.1.trans (by decide), h.2.1.trans (by decide)⟩

/-- C8: when every listing succeeds and the first write to fail is the one of
the spoke version `e`, `Generate` returns an error that wraps the cause and
names the path `<scanDir>/<e>/zz_generated.conversion.go`; the writes
attempted are those of the spoke versions up to and including `e`, in scan
order; the directories listed are the scan directory and those of the same
spoke versions; and the registry is the one obtained from the files of these
spoke versions alone. -/
theorem C8_write_failure_aborts (lower : Char → Char) (cg : ConversionConvertibleGenerator)
    (fs : FS) (cfgs : List terraformedInput) (front back : List DirEntry) (e : DirEntry)
    (err : IOError)
    (hroot : fs.readDir cg.LocalDirectoryPath = Except.ok (front ++ e :: back))
    (hlist : ∀ s ∈ front ++ e :: back, s.IsDir = true → s.Name ≠ cg.version →
      (fs.readDir (versionDirOf cg.LocalDirectoryPath s.Name)).isOk = true)
    (hfront : ∀ s ∈ front, s.IsDir = true → s.Name ≠ cg.version →
      fs.write (filePathOf cg.LocalDirectoryPath s.Name)
        (manifestOf lower cfgs fs cg.LocalDirectoryPath s) = none)
    (hdir : e.IsDir = true) (hhub : e.Name ≠ cg.version)
    (hfail : fs.write (filePathOf cg.LocalDirectoryPath e.Name)
      (manifestOf lower cfgs fs cg.LocalDirectoryPath e) = some err) :
    (Generate lower cg fs cfgs).1 =
      some (GenError.mk err
        ("cannot write the generated conversion Hub functions file " ++
          filepathJoin [cg.LocalDirectoryPath, e.Name, "zz_generated.conversion.go"])) ∧
    (Generate lower cg fs cfgs).2.writes.map Prod.fst =
      (front.filter (fun s => s.IsDir && decide (s.Name ≠ cg.version)) ++ [e]).map
        (fun s => filepathJoin [cg.LocalDirectoryPath, s.Name, "zz_generated.conversion.go"]) ∧
    (Generate lower cg fs cfgs).2.listed =
      cg.LocalDirectoryPath ::
        (front.filter (fun s => s.IsDir && decide (s.Name ≠ cg.version)) ++ [e]).map
          (fun s => filepathJoin [cg.LocalDirectoryPath, s.Name]) ∧
    (Generate lower cg fs cfgs).2.SpokeVersionsMap =
      registryThrough lower cfgs fs cg.LocalDirectoryPath
        (front.filter (fun s => s.IsDir && decide (s.Name ≠ cg.version)) ++ [e])
        cg.SpokeVersionsMap := by
  have hs : isSpoke cg.version e = true := (isSpoke_iff _ _).2 ⟨hdir, hhub⟩
  have hall : allSucceed lower cg.version cfgs fs cg.LocalDirectoryPath front := by
    intro s hs1 hs2
    have h := (isSpoke_iff _ _).1 hs2
    exact ⟨hlist s (List.mem_append_left _ hs1) h.1 h.2, hfront s hs1 h.1 h.2⟩
  obtain ⟨files, hl⟩ := (isOk_iff _).1 (hlist e (by simp) hdir hhub)
  have hgen : Generate lower cg fs cfgs =
      generateLoop lower cg.LocalDirectoryPath cg.version fs cfgs (front ++ e :: back)
        (GenState.mk cg.SpokeVersionsMap [cg.LocalDirectoryPath] []) := by
    simp only [Generate, hroot]
  rw [hgen, generateLoop_append _ _ _ _ _ _ _ _ hall,
    generateLoop_write_error _ _ _ _ _ _ _ _ files err hs hl hfail]
  refine ⟨rfl, ?_, ?_, ?_⟩
  · simp [spokesOf_eq, writeOf, filePathOf, Function.comp_def]
  · simp [spokesOf_eq, versionDirOf, Function.comp_def]
  · simp [spokesOf_eq, registryThrough, List.foldl_append]

/-- C8 on the file system that refuses the file of `v1alpha2`: the error names
that file, the writes attempted are those of `v1alpha1` and `v1alpha2`, and
the later spoke version `v1alpha3` is neither listed nor written. -/
theorem C8_write_failure_aborts_witness :
    (Generate Char.toLower scenarioGen writeFailsFS bucketCfgs).1 =
      some (GenError.mk denied
        ("cannot write the generated conversion Hub functions file " ++
          "apis/s3/v1alpha2/zz_generated.conversion.go")) ∧
    (Generate Char.toLower scenarioGen writeFailsFS bucketCfgs).2.writes.map Prod.fst =
      ["apis/s3/v1alpha1/zz_generated.conversion.go",
        "apis/s3/v1alpha2/zz_generated.conversion.go"] ∧
    (Generate Char.toLower scenarioGen writeFailsFS bucketCfgs).2.listed =
      ["apis/s3", "apis/s3/v1alpha1", "apis/s3/v1alpha2"] := by
  have h := C8_write_failure_aborts Char.toLower scenarioGen writeFailsFS bucketCfgs
    [DirEntry.mk "v1alpha1" true] [DirEntry.mk "v1alpha3" true, DirEntry.mk "v1beta1" true]
    (DirEntry.mk "v1alpha2" true)
    denied (by rfl) (by decide) (by decide) rfl (by decide) (by decide)
  exact ⟨h.1.trans (by decide), h.2.1.trans (by decide), h.2.2.1.trans (by decide)⟩

/-- C6: when the scan directory cannot be listed, `Generate` returns an error
that wraps the listing error and whose message names the scan directory, no
write is attempted, no other directory is listed, and the registry is the one
the generator had before the call. -/
theorem C6_root_listing_error (lower : Char → Char) (cg : ConversionConvertibleGenerator)
    (fs : FS) (cfgs : List terraformedInput) (err : IOError)
    (hroot : fs.readDir cg.LocalDirectoryPath = Except.error err) :
    (∃ e, (Generate lower cg fs cfgs).1 = some e ∧ e.cause = err ∧
      e.msg = "cannot list the directory entries for the source folder " ++
        cg.LocalDirectoryPath ++
        " while generating the conversion.Convertible interface functions") ∧
    (Generate lower cg fs cfgs).2.writes = [] ∧
    (Generate lower cg fs cfgs).2.listed = [cg.LocalDirectoryPath] ∧
    (Generate lower cg fs cfgs).2.SpokeVersionsMap = cg.SpokeVersionsMap := by
  have hgen : Generate lower cg fs cfgs =
      (some (GenError.mk err (msgListRoot cg.LocalDirectoryPath)),
        GenState.mk cg.SpokeVersionsMap [cg.LocalDirectoryPath] []) := by
    simp only [Generate, hroot]
  rw [hgen]
  exact ⟨⟨_, rfl, rfl, rfl⟩, rfl, rfl, rfl⟩

/-- C6 on a file system without the scan directory `apis/ec2`. -/
theorem C6_root_listing_error_witness :
    (Generate Char.toLower
        (NewConversionConvertibleGenerator Char.toLower "" "ec2.aws.upbound.io" "v1beta1")
        scenarioFS bucketCfgs).1 =
      some (GenError.mk notFound
        ("cannot list the directory entries for the source folder apis/ec2" ++
          " while generating the conversion.Convertible interface functions")) ∧
    (Generate Char.toLower
        (NewConversionConvertibleGenerator Char.toLower "" "ec2.aws.upbound.io" "v1beta1")
        scenarioFS bucketCfgs).2.writes = [] := by
  have h := C6_root_listing_error Char.toLower
    (NewConversionConvertibleGenerator Char.toLower "" "ec2.aws.upbound.io" "v1beta1")
    scenarioFS bucketCfgs notFound (by rfl)
  obtain ⟨⟨e, h1, h2, h3⟩, h4, _, _⟩ := h
  refine ⟨?_, h4⟩
  rw [h1]
  cases e
  simp only at h2 h3
  rw [h2, h3]
  decide

/-- C7 as stated fails: the identifier `Bucket` (from `zz_Bucket_types.go`)
has the same lowercase form as the kind `Bucket`, and no descriptor is
returned. -/
theorem C7_case_insensitive_counterexample :
    ¬ ((findKindTerraformedInput Char.toLower bucketCfgs "Bucket").isSome = true ↔
      ∃ c ∈ bucketCfgs,
        ToLower Char.toLower c.Kind = ToLower Char.toLower "Bucket") := by
  intro h
  have h1 : (findKindTerraformedInput Char.toLower bucketCfgs "Bucket").isSome = false := by
    decide
  have h2 : ∃ c ∈ bucketCfgs,
      ToLower Char.toLower c.Kind = ToLower Char.toLower "Bucket" :=
    ⟨terraformedInput.mk "Bucket" "s3", by decide, by decide⟩
  rw [h.2 h2] at h1
  exact absurd h1 (by decide)

/-- C7, amended: `findKindTerraformedInput` returns a descriptor exactly when
some descriptor has a lowercased kind equal to the identifier as it is
written; the descriptor returned is the first such one. -/
theorem C7_lowercased_kind_lookup (lower : Char → Char) (cfgs : List terraformedInput)
    (name : String) :
    ((findKindTerraformedInput lower cfgs name).isSome = true ↔
      ∃ c ∈ cfgs, ToLower lower c.Kind = name) ∧
    (∀ front d back, cfgs = front ++ d :: back →
      (∀ x ∈ front, ToLower lower x.Kind ≠ name) → ToLower lower d.Kind = name →
      findKindTerraformedInput lower cfgs name = some d) := by
  refine ⟨findKind_isSome_iff lower cfgs name, ?_⟩
  intro front d back hc hfront hd
  rw [hc]
  exact findKind_first lower front back d name hfront hd

/-- C9: processing one type file that resolves to the descriptor `c` in the
version directory `versionDir` stores, under the key `c.ShortGroup.c.Kind`,
the value read under the plain key `c.Kind` (empty when absent) followed by
the base name of the version directory, and changes no other key; for the
directory of a valid entry name that base name is the entry name. -/
theorem C9_registry_update_keys (lower : Char → Char) (cfgs : List terraformedInput)
    (versionDir m1 : String) (f : DirEntry) (c : terraformedInput)
    (res : List Resource) (r : Registry)
    (hfile : f.IsDir = false) (hmatch : regexTypeFileSubmatch f.Name = some m1)
    (hfound : findKindTerraformedInput lower cfgs m1 = some c) :
    (processFile lower cfgs versionDir (res, r) f).2 (c.ShortGroup ++ "." ++ c.Kind) =
      some ((r c.Kind).getD [] ++ [filepathBase versionDir]) ∧
    (∀ k, k ≠ c.ShortGroup ++ "." ++ c.Kind →
      (processFile lower cfgs versionDir (res, r) f).2 k = r k) ∧
    (∀ dir name, validName name → versionDir = filepathJoin [dir, name] →
      filepathBase versionDir = name) := by
  have hp : processFile lower cfgs versionDir (res, r) f =
      (res ++ [Resource.mk (CRD.mk c.Kind)],
        r.set (sprintfDot c.ShortGroup c.Kind) (r.read c.Kind ++ [filepathBase versionDir])) := by
    simp [processFile, hfile, hmatch, hfound]
  rw [hp]
  refine ⟨by simp [Registry.set, sprintfDot, Registry.read], ?_, ?_⟩
  · intro k hk
    simp [Registry.set, sprintfDot, hk]
  · intro dir name hv hd
    rw [hd]
    exact filepathBase_versionDirOf dir name hv

/-- C9 on the scenario: from the registry that holds `Bucket ↦ [v0]`, the file
`zz_bucket_types.go` of `apis/s3/v1alpha1` stores `[v0, v1alpha1]` under
`s3.Bucket` and leaves the key `Bucket` as it was. -/
theorem C9_registry_update_keys_witness :
    (processFile Char.toLower bucketCfgs "apis/s3/v1alpha1"
        ([], emptyRegistry.set "Bucket" ["v0"]) (DirEntry.mk "zz_bucket_types.go" false)).2
      "s3.Bucket" = some ["v0", "v1alpha1"] ∧
    (processFile Char.toLower bucketCfgs "apis/s3/v1alpha1"
        ([], emptyRegistry.set "Bucket" ["v0"]) (DirEntry.mk "zz_bucket_types.go" false)).2
      "Bucket" = some ["v0"] := by
  have h := C9_registry_update_keys Char.toLower bucketCfgs "apis/s3/v1alpha1" "bucket"
    (DirEntry.mk "zz_bucket_types.go" false) (terraformedInput.mk "Bucket" "s3") []
    (emptyRegistry.set "Bucket" ["v0"]) rfl (by decide) (by decide)
  refine ⟨h.1.trans (by decide), (h.2.1 "Bucket" (by decide)).trans (by decide)⟩

theorem registryInv_set (cfgs : List terraformedInput) (hdot : ∀ d ∈ cfgs, '.' ∉ d.Kind.data)
    (r : Registry) (c : terraformedInput) (b : String) (h : RegistryInv cfgs r) :
    RegistryInv cfgs (r.set (keyOf c) [b]) := by
  intro k v hkv
  by_cases hk : k = keyOf c
  · subst hk
    have hv : v = [b] := by simpa [Registry.set] using hkv.symm
    exact ⟨keyOf_has_dot c, fun d hd => keyOf_ne_kind cfgs hdot c d hd, by simp [hv]⟩
  · have : r k = some v := by simpa [Registry.set, hk] using hkv
    exact h k v this

theorem registryInv_empty (cfgs : List terraformedInput) : RegistryInv cfgs emptyRegistry := by
  intro k v h
  simp [emptyRegistry] at h

/-- C10: from the empty registry and with descriptor kinds free of dots, every
round of the file loop keeps the invariant (every key has a dot, no key is a
descriptor kind, every value holds one name) and stores at most the name of
the version directory being scanned; at the end of `Generate`, with or without
an error, the invariant holds and the value under a key is the single name of
the last processed spoke version in which a file resolved to a descriptor of
that key; a second run from that registry leaves it unchanged. -/
theorem C10_registry_invariant (lower : Char → Char) (cg : ConversionConvertibleGenerator)
    (fs : FS) (cfgs : List terraformedInput)
    (hempty : cg.SpokeVersionsMap = emptyRegistry)
    (hdot : ∀ d ∈ cfgs, '.' ∉ d.Kind.data) :
    (∀ vd acc f, RegistryInv cfgs acc.2 →
      RegistryInv cfgs (processFile lower cfgs vd acc f).2 ∧
      ((processFile lower cfgs vd acc f).2 = acc.2 ∨
        ∃ c ∈ cfgs, (processFile lower cfgs vd acc f).2 =
          acc.2.set (c.ShortGroup ++ "." ++ c.Kind) [filepathBase vd])) ∧
    RegistryInv cfgs cg.SpokeVersionsMap ∧
    RegistryInv cfgs (Generate lower cg fs cfgs).2.SpokeVersionsMap ∧
    (Generate lower cg fs cfgs).2.writes =
      (processedBy lower cg fs cfgs).map (writeOf lower cfgs fs cg.LocalDirectoryPath) ∧
    (∀ k, (Generate lower cg fs cfgs).2.SpokeVersionsMap k =
      ((processedBy lower cg fs cfgs).reverse.find?
        (matchedIn lower cfgs fs cg.LocalDirectoryPath k)).map
          (fun e => [filepathBase (filepathJoin [cg.LocalDirectoryPath, e.Name])])) ∧
    (∀ e : DirEntry, validName e.Name →
      filepathBase (filepathJoin [cg.LocalDirectoryPath, e.Name]) = e.Name) ∧
    (Generate lower
        (ConversionConvertibleGenerator.mk cg.LocalDirectoryPath cg.LicenseHeaderPath
          (Generate lower cg fs cfgs).2.SpokeVersionsMap cg.version)
        fs cfgs).2.SpokeVersionsMap =
      (Generate lower cg fs cfgs).2.SpokeVersionsMap := by
  have hlook : ∀ k, (Generate lower cg fs cfgs).2.SpokeVersionsMap k =
      ((processedBy lower cg fs cfgs).reverse.find?
        (matchedIn lower cfgs fs cg.LocalDirectoryPath k)).map
          (fun e => [filepathBase (filepathJoin [cg.LocalDirectoryPath, e.Name])]) := by
    intro k
    have h0 : NoKindKey cfgs cg.SpokeVersionsMap := by
      rw [hempty]; exact fun _ _ => rfl
    rw [Generate_registry, (registryThrough_lookup lower cfgs hdot fs cg.LocalDirectoryPath
      (processedBy lower cg fs cfgs) cg.SpokeVersionsMap h0 k).2]
    cases (processedBy lower cg fs cfgs).reverse.find?
        (matchedIn lower cfgs fs cg.LocalDirectoryPath k) with
    | none => simp [hempty, emptyRegistry]
    | some e => simp [spokeName, versionDirOf]
  have hinv : RegistryInv cfgs (Generate lower cg fs cfgs).2.SpokeVersionsMap := by
    intro k v hkv
    rw [hlook k] at hkv
    cases hf : (processedBy lower cg fs cfgs).reverse.find?
        (matchedIn lower cfgs fs cg.LocalDirectoryPath k) with
    | none => simp [hf] at hkv
    | some e =>
      have hm := List.find?_some hf
      obtain ⟨c, hc, hck⟩ := matchedIn_key lower cfgs fs _ k e hm
      have hv : v = [filepathBase (filepathJoin [cg.LocalDirectoryPath, e.Name])] := by
        simpa [hf] using hkv.symm
      refine ⟨hck ▸ keyOf_has_dot c, fun d hd => hck ▸ keyOf_ne_kind cfgs hdot c d hd, ?_⟩
      simp [hv]
  refine ⟨?_, ?_, hinv, Generate_writes lower cg fs cfgs, hlook, ?_, ?_⟩
  · intro vd acc f hacc
    have hstep := processFile_noKindKey lower cfgs vd acc f (noKindKey_of_inv cfgs acc.2 hacc)
    cases hr : resolveFile lower cfgs f with
    | none =>
      rw [hr] at hstep
      simp only at hstep
      rw [hstep]
      exact ⟨hacc, Or.inl rfl⟩
    | some c =>
      rw [hr] at hstep
      simp only at hstep
      rw [hstep]
      exact ⟨registryInv_set cfgs hdot acc.2 c _ hacc,
        Or.inr ⟨c, resolveFile_mem lower cfgs f c hr, rfl⟩⟩
  · rw [hempty]
    exact registryInv_empty cfgs
  · intro e he
    exact filepathBase_versionDirOf cg.LocalDirectoryPath e.Name he
  · funext k
    have h1 : NoKindKey cfgs (Generate lower cg fs cfgs).2.SpokeVersionsMap :=
      noKindKey_of_inv cfgs _ hinv
    have hp : processedBy lower
        (ConversionConvertibleGenerator.mk cg.LocalDirectoryPath cg.LicenseHeaderPath
          (Generate lower cg fs cfgs).2.SpokeVersionsMap cg.version) fs cfgs =
        processedBy lower cg fs cfgs := rfl
    rw [Generate_registry, hp]
    simp only
    rw [(registryThrough_lookup lower cfgs hdot fs cg.LocalDirectoryPath
      (processedBy lower cg fs cfgs) _ h1 k).2, hlook k]
    cases (processedBy lower cg fs cfgs).reverse.find?
        (matchedIn lower cfgs fs cg.LocalDirectoryPath k) with
    | none => rfl
    | some e => simp [spokeName, versionDirOf]

/-- C10 on the file system with the spoke versions `v1alpha1` and `v1alpha2`:
the registry ends with the single name `v1alpha2` under `s3.Bucket`, and a
second run from that registry ends with the same value. -/
theorem C10_registry_invariant_witness :
    (Generate Char.toLower scenarioGen twoSpokesFS bucketCfgs).2.SpokeVersionsMap "s3.Bucket" =
      some ["v1alpha2"] ∧
    (Generate Char.toLower
        (ConversionConvertibleGenerator.mk scenarioGen.LocalDirectoryPath
          scenarioGen.LicenseHeaderPath
          (Generate Char.toLower scenarioGen twoSpokesFS bucketCfgs).2.SpokeVersionsMap
          scenarioGen.version)
        twoSpokesFS bucketCfgs).2.SpokeVersionsMap "s3.Bucket" = some ["v1alpha2"] := by
  have h := C10_registry_invariant Char.toLower scenarioGen twoSpokesFS bucketCfgs rfl
    (by decide)
  have h1 : (Generate Char.toLower scenarioGen twoSpokesFS bucketCfgs).2.SpokeVersionsMap
      "s3.Bucket" = some ["v1alpha2"] := (h.2.2.2.2.1 "s3.Bucket").trans (by decide)
  refine ⟨h1, ?_⟩
  rw [h.2.2.2.2.2.2]
  exact h1

end Upjet
